import Mathlib

/-!
synth-xfer: the enumeration / sampling engine over an abstract domain

A shallow embedding of `src/cpp/domain.hpp` (the `Domain` concept, `operator==`,
`isSuperset`, `joinAll`, `meetAll`) and of `src/cpp/enum.hpp` (`EnumDomain`: `toBestAbst`, `genLows`,
`genMids`, `genHighs` and their private helpers), followed by theorems about them.

Conventions of the embedding.
* A machine word (`std::uint64_t`) is a `Nat`, reduced `% 2 ^ 64` wherever the C++
  produces one.
* `std::mt19937 &rng` is a state of an arbitrary type `ρ`, passed explicitly.
* `std::tuple<Dom<BWs>...>` is a heterogeneous tuple `HTuple D BWs` indexed by the
  list of bit-widths; `std::array<std::uint64_t, N>` is a `List Nat` of length `N`.
* A lambda that captures locals by reference is a state transformer on the captured
  state.
* A loop counter of a fixed-width unsigned type is incremented `% 2 ^ w`; a loop that
  may not end takes a bound on the executions of its body and returns an `Option`.
-/

namespace SynthXfer

/-! ## The bit-vector value type -/

/-- Modelled from the spec: `apint.hpp` is not among the sources. A fixed-width integer
of width `bw` "with equality, zero-extension to a machine word, and construction from a
machine word": an unsigned value below `2 ^ bw`. -/
structure APInt (bw : Nat) where
  val : Nat
  isLt : val < 2 ^ bw
deriving DecidableEq

/-- Modelled from the spec: `APInt::getZExtValue`, the zero-extension of the value to
a machine word. -/
def APInt.getZExtValue {bw : Nat} (a : APInt bw) : Nat :=
  a.val % 2 ^ 64

/-- Modelled from the spec: the constructor `APInt<BW>(std::uint64_t)`, construction
from a machine word (the word is reduced to the width). -/
def APInt.ofWord (bw : Nat) (w : Nat) : APInt bw :=
  ⟨w % 2 ^ bw, Nat.mod_lt _ (Nat.pos_pow_of_pos bw (by decide))⟩

/-! ## The `Domain` concept (`domain.hpp`) -/

/-- The operations the concept `Domain<D, BW>` requires of the class `D<BW>`, for a
family `D` of classes indexed by the bit-width. `dflt` is the value-initialised object
(`D<BW>{}`), which `EnumDomain` creates for its scratch tuples. The operations taking
`std::mt19937 &` return the new generator state. -/
structure Domain (ρ : Type) (D : Nat → Type) (bw : Nat) where
  arity : Nat
  idx : D bw → Nat → APInt bw
  dflt : D bw
  rand : ρ → D bw × ρ
  bottom : D bw
  top : D bw
  enumLattice : List (D bw)
  fromConcrete : APInt bw → D bw
  isTop : D bw → Bool
  isBottom : D bw → Bool
  meet : D bw → D bw → D bw
  join : D bw → D bw → D bw
  toConcrete : D bw → List (APInt bw)
  sample_concrete : D bw → ρ → APInt bw × ρ

section DomainHelpers

variable {ρ : Type} {D : Nat → Type} {bw : Nat}

/-- The loop of `operator==`, from index `i` with `n` iterations left: the first
unequal component returns `false`. -/
def opEqLoop (dom : Domain ρ D bw) (lhs rhs : D bw) : Nat → Nat → Bool
  | _, 0 => true
  | i, n + 1 =>
    if ¬ (dom.idx lhs i = dom.idx rhs i) then false
    else opEqLoop dom lhs rhs (i + 1) n

/-- The free `operator==` on domain values: component-wise over `0 ≤ i < arity`. -/
def opEq (dom : Domain ρ D bw) (lhs rhs : D bw) : Bool :=
  opEqLoop dom lhs rhs 0 dom.arity

/-- The free `operator!=`. -/
def opNe (dom : Domain ρ D bw) (lhs rhs : D bw) : Bool :=
  !(opEq dom lhs rhs)

/-- The helper `DomainHelpers::isSuperset`: `lhs.meet(rhs) == rhs`. -/
def isSuperset (dom : Domain ρ D bw) (lhs rhs : D bw) : Bool :=
  opEq dom (dom.meet lhs rhs) rhs

/-- The loop `for (std::size_t i = 1; i < v.size(); ++i) d = d.join(v[i]);` of
`joinAll`, from the counter value `i` and the accumulator `d`. The counter is a 64-bit
`std::size_t`, the type of `v.size()`, so `++i` is taken `% 2 ^ 64`. The first argument
bounds the number of executions of the body: `none` when the loop has not ended by
then. -/
def joinAllLoop (dom : Domain ρ D bw) (v : List (D bw)) : Nat → Nat → D bw → Option (D bw)
  | 0, i, d => if i < v.length then none else some d
  | fuel + 1, i, d =>
    if h : i < v.length then
      joinAllLoop dom v fuel ((i + 1) % 2 ^ 64) (dom.join d (v.get ⟨i, h⟩))
    else some d

/-- The helper `DomainHelpers::joinAll`: `bottom()` for an empty vector, else the loop
from `d = v[0]`. -/
def joinAll (dom : Domain ρ D bw) (fuel : Nat) (v : List (D bw)) : Option (D bw) :=
  match v with
  | [] => some dom.bottom
  | v0 :: _ => joinAllLoop dom v fuel 1 v0

/-- The loop `for (unsigned int i = 1; i < v.size(); ++i) d = d.meet(v[i]);` of
`meetAll`, from the counter value `i` and the accumulator `d`. The counter is a 32-bit
`unsigned int`, so `++i` is taken `% 2 ^ 32`; the comparison with `v.size()` is made at
the width of `std::size_t`. The first argument bounds the number of executions of the
body: `none` when the loop has not ended by then. -/
def meetAllLoop (dom : Domain ρ D bw) (v : List (D bw)) : Nat → Nat → D bw → Option (D bw)
  | 0, i, d => if i < v.length then none else some d
  | fuel + 1, i, d =>
    if h : i < v.length then
      meetAllLoop dom v fuel ((i + 1) % 2 ^ 32) (dom.meet d (v.get ⟨i, h⟩))
    else some d

/-- The helper `DomainHelpers::meetAll`: `top()` for an empty vector, else the loop
from `d = v[0]`. -/
def meetAll (dom : Domain ρ D bw) (fuel : Nat) (v : List (D bw)) : Option (D bw) :=
  match v with
  | [] => some dom.top
  | v0 :: _ => meetAllLoop dom v fuel 1 v0

end DomainHelpers

/-! ## Heterogeneous tuples -/

/-- The tuple `std::tuple<F<BWs>...>`, one component per bit-width of the list. -/
inductive HTuple (F : Nat → Type) : List Nat → Type
  | nil : HTuple F []
  | cons {bw : Nat} {bws : List Nat} : F bw → HTuple F bws → HTuple F (bw :: bws)

/-- The assignment `std::get<I>(t) = v` for a value `v` of type `F bw`. In the C++ the
index is a template parameter and the types agree statically; here the width is compared
at run time, and a position that does not exist or has another width is left alone. -/
def HTuple.setAt {F : Nat → Type} :
    {bws : List Nat} → HTuple F bws → Nat → (bw : Nat) → F bw → HTuple F bws
  | _, .nil, _, _, _ => .nil
  | b :: _, .cons x t, 0, bw, v =>
    if h : bw = b then .cons (h ▸ v) t else .cons x t
  | _, .cons x t, i + 1, bw, v => .cons x (HTuple.setAt t i bw v)

/-- The components of a tuple, each tagged with its width, in order. -/
def HTuple.toList {F : Nat → Type} : {bws : List Nat} → HTuple F bws → List (Σ bw, F bw)
  | _, .nil => []
  | _, @HTuple.cons _ bw _ x t => ⟨bw, x⟩ :: HTuple.toList t

/-! ## The engine (`enum.hpp`) -/

/-- The class `EnumDomain<Dom, ResBw, BWs...>`: the domain family it is instantiated
with, and its two data members `concOp` and `opCon`. An n-ary function on machine words
is a function on the list of its arguments. -/
structure EnumDomain (ρ : Type) (D : Nat → Type) (ResBw : Nat) (BWs : List Nat) where
  dom : (bw : Nat) → Domain ρ D bw
  concOp : List Nat → Nat
  opCon : Option (List Nat → Nat)

/-- The type `ArgsTuple`. -/
abbrev ArgsTuple (D : Nat → Type) (BWs : List Nat) : Type := HTuple D BWs

/-- The tuple of concrete sets, `std::tuple<std::vector<APInt<BWs>>...>`. -/
abbrev ConcSets (BWs : List Nat) : Type := HTuple (fun bw => List (APInt bw)) BWs

/-- One element of `EvalVec`: `std::tuple_cat(args, std::tuple<ResD>{res})`, kept as
the pair of the argument tuple and the result. -/
abbrev Example (D : Nat → Type) (ResBw : Nat) (BWs : List Nat) : Type :=
  ArgsTuple D BWs × D ResBw

/-- The helper `apply_n_ary`: calls `f(vals[0], ..., vals[N-1])`; the callee returns a
`std::uint64_t`. -/
def apply_n_ary (f : List Nat → Nat) (vals : List Nat) : Nat :=
  f vals % 2 ^ 64

/-- The helper `for_each_conc_combination<I>`, on the remaining widths `BWs[I..]`. The
state is the array `current`, written in place, and the state `σ` captured by `body`. -/
def for_each_conc_combination {σ : Type} (body : List Nat → σ → σ) :
    Nat → (bws : List Nat) → ConcSets bws → List Nat × σ → List Nat × σ
  | _, [], _, st => (st.1, body st.1 st.2)
  | I, _ :: bws, .cons vec rest, st =>
    vec.foldl
      (fun st bv =>
        for_each_conc_combination body (I + 1) bws rest
          (st.1.set I bv.getZExtValue, st.2))
      st

section Engine

variable {ρ : Type} {D : Nat → Type} {ResBw : Nat} {BWs : List Nat}

/-- The helper `build_concrete_sets`: `toConcrete()` of every argument. -/
def build_concrete_sets (dom : (bw : Nat) → Domain ρ D bw) :
    {bws : List Nat} → ArgsTuple D bws → ConcSets bws
  | _, .nil => .nil
  | _, @HTuple.cons _ bw _ x t => .cons ((dom bw).toConcrete x) (build_concrete_sets dom t)

/-- The lambda passed by `toBestAbst` to `for_each_conc_combination`; `res` is the
captured accumulator. -/
def toBestAbstBody (E : EnumDomain ρ D ResBw BWs) (vals : List Nat) (res : D ResBw) :
    D ResBw :=
  match E.opCon with
  | some p =>
    if apply_n_ary p vals = 0 then res
    else (E.dom ResBw).join res
      ((E.dom ResBw).fromConcrete (APInt.ofWord ResBw (apply_n_ary E.concOp vals)))
  | none =>
    (E.dom ResBw).join res
      ((E.dom ResBw).fromConcrete (APInt.ofWord ResBw (apply_n_ary E.concOp vals)))

/-- The method `EnumDomain::toBestAbst`. -/
def toBestAbst (E : EnumDomain ρ D ResBw BWs) (args : ArgsTuple D BWs) : D ResBw :=
  let concSets := build_concrete_sets E.dom args
  (for_each_conc_combination (toBestAbstBody E) 0 BWs concSets
    (List.replicate BWs.length 0, (E.dom ResBw).bottom)).2

/-- The helper `for_each_combination<I>`, on the remaining widths `BWs[I..]`. The state
is the tuple `current`, written in place, and the state `σ` captured by `body`. -/
def for_each_combination {σ : Type} (body : ArgsTuple D BWs → σ → σ) :
    Nat → (bws : List Nat) → HTuple (fun bw => List (D bw)) bws →
      ArgsTuple D BWs × σ → ArgsTuple D BWs × σ
  | _, [], _, st => (st.1, body st.1 st.2)
  | I, bw :: bws, .cons vec rest, st =>
    vec.foldl
      (fun st v =>
        for_each_combination body (I + 1) bws rest (HTuple.setAt st.1 I bw v, st.2))
      st

/-- The tuple `lattices` of `genLows`: `Dom<BWs>::enumLattice()...`. -/
def enumLattices (dom : (bw : Nat) → Domain ρ D bw) :
    (bws : List Nat) → HTuple (fun bw => List (D bw)) bws
  | [] => .nil
  | bw :: bws => .cons (dom bw).enumLattice (enumLattices dom bws)

/-- A value-initialised `ArgsTuple`, as in `ArgsTuple current{}`. -/
def defaultArgs (dom : (bw : Nat) → Domain ρ D bw) : (bws : List Nat) → ArgsTuple D bws
  | [] => .nil
  | bw :: bws => .cons (dom bw).dflt (defaultArgs dom bws)

/-- The method `EnumDomain::genLows`. -/
def genLows (E : EnumDomain ρ D ResBw BWs) : List (Example D ResBw BWs) :=
  let lattices := enumLattices E.dom BWs
  let current := defaultArgs E.dom BWs
  (for_each_combination (fun args r => r ++ [(args, toBestAbst E args)]) 0 BWs lattices
    (current, [])).2

/-- The fold `((elems = decltype(elems)::rand(rng)), ...)` of `make_random_args` over
the elements of the tuple, left to right. -/
def make_random_args_fold (dom : (bw : Nat) → Domain ρ D bw) :
    {bws : List Nat} → ArgsTuple D bws → ρ → ArgsTuple D bws × ρ
  | _, .nil, rng => (.nil, rng)
  | _, @HTuple.cons _ bw _ _ t, rng =>
    let r := (dom bw).rand rng
    let rest := make_random_args_fold dom t r.2
    (.cons r.1 rest.1, rest.2)

/-- The method `EnumDomain::make_random_args`. -/
def make_random_args (E : EnumDomain ρ D ResBw BWs) (rng : ρ) : ArgsTuple D BWs × ρ :=
  make_random_args_fold E.dom (defaultArgs E.dom BWs) rng

/-- The `while (true)` loop of `genMids`, run for at most `fuel` iterations: `none`
when the loop has not left by then, else the example it appends and the generator. -/
def genMidsWhile (E : EnumDomain ρ D ResBw BWs) : Nat → ρ → Option (Example D ResBw BWs × ρ)
  | 0, _ => none
  | fuel + 1, rng =>
    let a := make_random_args E rng
    let res := toBestAbst E a.1
    if !(E.dom ResBw).isBottom res then some ((a.1, res), a.2)
    else genMidsWhile E fuel a.2

/-- The `for` loop of `genMids`, with `n` iterations left. -/
def genMidsFor (E : EnumDomain ρ D ResBw BWs) (fuel : Nat) :
    Nat → List (Example D ResBw BWs) × ρ → Option (List (Example D ResBw BWs) × ρ)
  | 0, st => some st
  | n + 1, st =>
    match genMidsWhile E fuel st.2 with
    | none => none
    | some (ex, rng) => genMidsFor E fuel n (st.1 ++ [ex], rng)

/-- The method `EnumDomain::genMids`; every inner `while` loop is given `fuel`
iterations. Returns the vector and the final generator state. -/
def genMids (E : EnumDomain ρ D ResBw BWs) (fuel : Nat) (num_lat_samples : Nat) (rng : ρ) :
    Option (List (Example D ResBw BWs) × ρ) :=
  genMidsFor E fuel num_lat_samples ([], rng)

/-- The state of the sampling code: the generator, and a log of the objects on which
`sample_concrete` has been called so far (the log is only written, never read). -/
structure SampleState (ρ : Type) (D : Nat → Type) where
  rng : ρ
  calls : List (Σ bw, D bw)

/-- The fold `((out[i++] = elems.sample_concrete(rng).getZExtValue()), ...)` of
`fill_sampled_concretes` over the elements of the tuple, left to right. -/
def fill_sampled_concretes_fold (dom : (bw : Nat) → Domain ρ D bw) :
    {bws : List Nat} → ArgsTuple D bws → Nat → SampleState ρ D × List Nat →
      SampleState ρ D × List Nat
  | _, .nil, _, st => st
  | _, @HTuple.cons _ bw _ x t, i, st =>
    let s := (dom bw).sample_concrete x st.1.rng
    fill_sampled_concretes_fold dom t (i + 1)
      (⟨s.2, st.1.calls ++ [⟨bw, x⟩]⟩, st.2.set i s.1.getZExtValue)

/-- The method `EnumDomain::fill_sampled_concretes`. -/
def fill_sampled_concretes (E : EnumDomain ρ D ResBw BWs) (args : ArgsTuple D BWs)
    (st : SampleState ρ D) (out : List Nat) : SampleState ρ D × List Nat :=
  fill_sampled_concretes_fold E.dom args 0 (st, out)

/-- The inner loop of `genHighs` (over `j`), with `n` iterations left; the state is the
generator and the accumulator `res`. -/
def genHighsInner (E : EnumDomain ρ D ResBw BWs) (args : ArgsTuple D BWs) :
    Nat → SampleState ρ D × D ResBw → SampleState ρ D × D ResBw
  | 0, st => st
  | n + 1, st =>
    let f := fill_sampled_concretes E args st.1 (List.replicate BWs.length 0)
    let concretes := f.2
    match E.opCon with
    | some p =>
      if apply_n_ary p concretes = 0 then genHighsInner E args n (f.1, st.2)
      else genHighsInner E args n (f.1, (E.dom ResBw).join st.2
        ((E.dom ResBw).fromConcrete (APInt.ofWord ResBw (apply_n_ary E.concOp concretes))))
    | none =>
      genHighsInner E args n (f.1, (E.dom ResBw).join st.2
        ((E.dom ResBw).fromConcrete (APInt.ofWord ResBw (apply_n_ary E.concOp concretes))))

/-- The outer loop of `genHighs` (over `i`), with `n` iterations left. -/
def genHighsOuter (E : EnumDomain ρ D ResBw BWs) (num_conc_samples : Nat) :
    Nat → List (Example D ResBw BWs) × SampleState ρ D →
      List (Example D ResBw BWs) × SampleState ρ D
  | 0, st => st
  | n + 1, st =>
    let a := make_random_args E st.2.rng
    let inner := genHighsInner E a.1 num_conc_samples
      (⟨a.2, st.2.calls⟩, (E.dom ResBw).bottom)
    genHighsOuter E num_conc_samples n (st.1 ++ [(a.1, inner.2)], inner.1)

/-- The method `EnumDomain::genHighs`. Returns the vector, and the final generator
state with the log of the `sample_concrete` calls. -/
def genHighs (E : EnumDomain ρ D ResBw BWs) (num_lat_samples num_conc_samples : Nat)
    (rng : ρ) : List (Example D ResBw BWs) × SampleState ρ D :=
  genHighsOuter E num_conc_samples num_lat_samples ([], ⟨rng, []⟩)

end Engine

/-! ## Reference notions the statements are compared with -/

section Reference

variable {ρ : Type} {D : Nat → Type} {ResBw : Nat} {BWs : List Nat}

/-- The cross-product of the concrete sets, as lists of zero-extended machine words,
in lexicographic order with the first set outermost. -/
def crossProduct : (bws : List Nat) → ConcSets bws → List (List Nat)
  | [], _ => [[]]
  | _ :: bws, .cons vec rest =>
    vec.flatMap fun bv => (crossProduct bws rest).map fun t => bv.getZExtValue :: t

/-- The cross-product of per-position lists of domain values, in lexicographic order
with the first position varying slowest. -/
def latticeProduct : (bws : List Nat) → HTuple (fun bw => List (D bw)) bws →
    List (ArgsTuple D bws)
  | [], _ => [.nil]
  | _ :: bws, .cons vec rest =>
    vec.flatMap fun v => (latticeProduct bws rest).map fun t => HTuple.cons v t

/-- The cross-product of the arguments' `toConcrete()` lists, read off the argument
tuple itself: every list of one zero-extended concrete value per argument, in
lexicographic order with the first argument outermost. -/
def concreteCombinations (dom : (bw : Nat) → Domain ρ D bw) :
    {bws : List Nat} → ArgsTuple D bws → List (List Nat)
  | _, .nil => [[]]
  | _, @HTuple.cons _ bw _ x t =>
    ((dom bw).toConcrete x).flatMap fun bv =>
      (concreteCombinations dom t).map fun rest => bv.getZExtValue :: rest

/-- The cross-product of the per-position `enumLattice()` lists, read off the domain
itself: every tuple of one lattice element per position, in lexicographic order with the
first position varying slowest. -/
def latticeTuples (dom : (bw : Nat) → Domain ρ D bw) : (bws : List Nat) → List (ArgsTuple D bws)
  | [] => [.nil]
  | bw :: bws =>
    (dom bw).enumLattice.flatMap fun v =>
      (latticeTuples dom bws).map fun rest => HTuple.cons v rest

/-- A combination is rejected when a predicate is supplied and returns the machine
word 0 on it. -/
def rejected (E : EnumDomain ρ D ResBw BWs) (vals : List Nat) : Bool :=
  match E.opCon with
  | some p => decide (p vals % 2 ^ 64 = 0)
  | none => false

/-- The abstraction `fromConcrete(op(vals))` of the machine word the concrete operation
returns on one combination. -/
def abstractResult (E : EnumDomain ρ D ResBw BWs) (vals : List Nat) : D ResBw :=
  (E.dom ResBw).fromConcrete (APInt.ofWord ResBw (E.concOp vals % 2 ^ 64))

/-- The combinations of the cross-product of the arguments' concrete sets that the
predicate does not reject. -/
def survivors (E : EnumDomain ρ D ResBw BWs) (args : ArgsTuple D BWs) : List (List Nat) :=
  (crossProduct BWs (build_concrete_sets E.dom args)).filter fun vals => !rejected E vals

/-- The laws of a bounded lattice, as far as the engine relies on them: `join` and
`meet` are commutative, associative and idempotent, they absorb each other, and
`bottom` is the identity of `join`. -/
structure IsBoundedLattice {bw : Nat} (dom : Domain ρ D bw) : Prop where
  join_comm : ∀ a b, dom.join a b = dom.join b a
  join_assoc : ∀ a b c, dom.join (dom.join a b) c = dom.join a (dom.join b c)
  join_idem : ∀ a, dom.join a a = a
  meet_comm : ∀ a b, dom.meet a b = dom.meet b a
  meet_assoc : ∀ a b c, dom.meet (dom.meet a b) c = dom.meet a (dom.meet b c)
  meet_idem : ∀ a, dom.meet a a = a
  join_meet : ∀ a b, dom.join a (dom.meet a b) = a
  meet_join : ∀ a b, dom.meet a (dom.join a b) = a
  bottom_join : ∀ a, dom.join dom.bottom a = a

/-- Equality of domain values is structural: values whose `arity` components agree are
the same value. -/
def StructuralEq {bw : Nat} (dom : Domain ρ D bw) : Prop :=
  ∀ a b, (∀ i, i < dom.arity → dom.idx a i = dom.idx b i) → a = b

end Reference

/-! ## A concrete instance: the sign domain

The domain of the concrete scenario of the specification, at every width: the abstract
values `bottom`, `negative`, `zero`, `positive` and `top`, the three signs concretizing
to the values of that sign (in two's complement). The generator state is a list of
numbers drawn in advance. -/

/-- The abstract values of the sign domain. -/
inductive Sign
  | bottom
  | negative
  | zero
  | positive
  | top
deriving DecidableEq, Fintype

/-- The family of classes: the same five values at every width. -/
abbrev SignD : Nat → Type := fun _ => Sign

/-- The join of two signs: distinct signs join to `top`. -/
def Sign.join : Sign → Sign → Sign
  | .bottom, b => b
  | a, .bottom => a
  | a, b => if a = b then a else .top

/-- The meet of two signs: distinct signs meet to `bottom`. -/
def Sign.meet : Sign → Sign → Sign
  | .top, b => b
  | a, .top => a
  | a, b => if a = b then a else .bottom

/-- The sign of a `bw`-bit value read in two's complement. -/
def Sign.ofValue (bw : Nat) (v : Nat) : Sign :=
  if v = 0 then .zero else if v < 2 ^ (bw - 1) then .positive else .negative

/-- Whether the abstract value `s` contains the values of sign `t`. -/
def Sign.covers (s t : Sign) : Bool :=
  decide (s = .top) || decide (s = t)

/-- The concretization: the `bw`-bit values whose sign the abstract value covers. -/
def Sign.toConcrete (bw : Nat) (s : Sign) : List (APInt bw) :=
  ((List.range (2 ^ bw)).filter fun v => s.covers (Sign.ofValue bw v)).map (APInt.ofWord bw)

/-- Three flags: may be negative, may be zero, may be positive. -/
def Sign.flags : Sign → List Nat
  | .bottom => [0, 0, 0]
  | .negative => [1, 0, 0]
  | .zero => [0, 1, 0]
  | .positive => [0, 0, 1]
  | .top => [1, 1, 1]

/-- The abstract value numbered `n % 5`. -/
def Sign.ofCode (n : Nat) : Sign :=
  match n % 5 with
  | 0 => .bottom
  | 1 => .negative
  | 2 => .zero
  | 3 => .positive
  | _ => .top

/-- Modelled from the spec: the sign domain of the concrete scenario, at width `bw` (no
domain class is among the sources). Its `rand` and `sample_concrete` consume the head of
the list of numbers drawn in advance (0 once the list is exhausted). -/
def signDomain (bw : Nat) : Domain (List Nat) SignD bw where
  arity := 3
  idx := fun s i => APInt.ofWord bw (s.flags.getD i 0)
  dflt := Sign.bottom
  rand := fun rng => (Sign.ofCode (rng.headD 0), rng.tail)
  bottom := Sign.bottom
  top := Sign.top
  enumLattice := [.bottom, .negative, .zero, .positive, .top]
  fromConcrete := fun a => Sign.ofValue bw a.val
  isTop := fun s => decide (s = Sign.top)
  isBottom := fun s => decide (s = Sign.bottom)
  meet := Sign.meet
  join := Sign.join
  toConcrete := Sign.toConcrete bw
  sample_concrete := fun s rng =>
    let l := Sign.toConcrete bw s
    (l.getD (rng.headD 0 % l.length) (APInt.ofWord bw 0), rng.tail)

/-- Addition of the first two arguments (the callee's result is a machine word). -/
def addOp (vals : List Nat) : Nat :=
  vals.getD 0 0 + vals.getD 1 0

/-- A predicate that rejects every combination. -/
def rejectAll (_ : List Nat) : Nat := 0

/-- The engine of the concrete scenario: two 4-bit arguments, a 4-bit result, addition,
no predicate. -/
def signAdd : EnumDomain (List Nat) SignD 4 [4, 4] :=
  ⟨signDomain, addOp, none⟩

/-- The same engine with the predicate that rejects every combination. -/
def signAddNever : EnumDomain (List Nat) SignD 4 [4, 4] :=
  ⟨signDomain, addOp, some rejectAll⟩

/-- The abstract value numbered `n % 4` among the four values other than `bottom`. -/
def Sign.ofCodeNonBottom (n : Nat) : Sign :=
  match n % 4 with
  | 0 => .negative
  | 1 => .zero
  | 2 => .positive
  | _ => .top

/-- The sign domain with a `rand` that never draws `bottom`. -/
def signDomainNonBottom (bw : Nat) : Domain (List Nat) SignD bw :=
  { signDomain bw with rand := fun rng => (Sign.ofCodeNonBottom (rng.headD 0), rng.tail) }

/-- The engine of the concrete scenario over the domain that never draws `bottom`. -/
def signAddNonBottom : EnumDomain (List Nat) SignD 4 [4, 4] :=
  ⟨signDomainNonBottom, addOp, none⟩

/-! ## Properties of a concretization -/

section Concretization

variable {ρ : Type} {D : Nat → Type} {bw : Nat}

/-- The concretization of a meet is the intersection of the concretizations. -/
def MeetIsIntersection (dom : Domain ρ D bw) : Prop :=
  ∀ a b, (∀ c, c ∈ dom.toConcrete (dom.meet a b) → c ∈ dom.toConcrete a ∧ c ∈ dom.toConcrete b)
    ∧ (∀ c, c ∈ dom.toConcrete a → c ∈ dom.toConcrete b → c ∈ dom.toConcrete (dom.meet a b))

/-- Values with the same concrete values are the same value. -/
def ConcretizationInjective (dom : Domain ρ D bw) : Prop :=
  ∀ a b, (∀ c, c ∈ dom.toConcrete a → c ∈ dom.toConcrete b) →
    (∀ c, c ∈ dom.toConcrete b → c ∈ dom.toConcrete a) → a = b

end Concretization

/-- A predicate that accepts every combination. -/
def acceptAll (_ : List Nat) : Nat := 1

/-- The engine of the concrete scenario with the predicate that accepts everything. -/
def signAddAlways : EnumDomain (List Nat) SignD 4 [4, 4] :=
  ⟨signDomain, addOp, some acceptAll⟩

/-- Unsigned addition of the first two arguments, truncated to 4 bits. -/
def addTrunc4 (vals : List Nat) : Nat :=
  (vals.getD 0 0 + vals.getD 1 0) % 2 ^ 4

/-- The engine of the concrete scenario, with the truncated addition as the operation. -/
def signAddTrunc : EnumDomain (List Nat) SignD 4 [4, 4] :=
  ⟨signDomain, addTrunc4, none⟩

/-! ## A second instance: a sign domain with two listings

Every abstract value of the sign domain in two variants that stand for the same concrete
values: the plain one lists them in increasing order, the other one lists them in
decreasing order, each value twice. -/

/-- A sign together with the flag of the variant. -/
structure ListedSign where
  sign : Sign
  relisted : Bool
deriving DecidableEq

/-- The family of classes: the same values at every width. -/
abbrev ListedSignD : Nat → Type := fun _ => ListedSign

/-- The concretization of a variant: the values of the sign, in increasing order for
the plain variant, in decreasing order and each twice for the other. -/
def ListedSign.toConcrete (bw : Nat) (s : ListedSign) : List (APInt bw) :=
  if s.relisted then
    (Sign.toConcrete bw s.sign).reverse.flatMap fun c => [c, c]
  else Sign.toConcrete bw s.sign

/-- Modelled from the spec: a domain satisfying the contract whose `toConcrete()` lists
the same concrete set in two ways. The lattice is the product of the sign lattice with
the flag (`||` for `join`, `&&` for `meet`). -/
def listedSignDomain (bw : Nat) : Domain (List Nat) ListedSignD bw where
  arity := 4
  idx := fun s i =>
    APInt.ofWord bw ((s.sign.flags ++ [if s.relisted then 1 else 0]).getD i 0)
  dflt := ⟨Sign.bottom, false⟩
  rand := fun rng => (⟨Sign.ofCode (rng.headD 0), decide (rng.headD 0 / 5 % 2 = 1)⟩, rng.tail)
  bottom := ⟨Sign.bottom, false⟩
  top := ⟨Sign.top, true⟩
  enumLattice :=
    [⟨.bottom, false⟩, ⟨.bottom, true⟩, ⟨.negative, false⟩, ⟨.negative, true⟩,
      ⟨.zero, false⟩, ⟨.zero, true⟩, ⟨.positive, false⟩, ⟨.positive, true⟩,
      ⟨.top, false⟩, ⟨.top, true⟩]
  fromConcrete := fun a => ⟨Sign.ofValue bw a.val, false⟩
  isTop := fun s => decide (s = ⟨Sign.top, true⟩)
  isBottom := fun s => decide (s = ⟨Sign.bottom, false⟩)
  meet := fun a b => ⟨Sign.meet a.sign b.sign, a.relisted && b.relisted⟩
  join := fun a b => ⟨Sign.join a.sign b.sign, a.relisted || b.relisted⟩
  toConcrete := ListedSign.toConcrete bw
  sample_concrete := fun s rng =>
    let l := ListedSign.toConcrete bw s
    (l.getD (rng.headD 0 % l.length) (APInt.ofWord bw 0), rng.tail)

/-- The addition engine over the sign domain with two listings: two 4-bit arguments, a
4-bit result, no predicate. -/
def listedAdd : EnumDomain (List Nat) ListedSignD 4 [4, 4] :=
  ⟨listedSignDomain, addOp, none⟩

/-! ## Reference notions for the strategies -/

section StrategyReference

variable {ρ : Type} {D : Nat → Type} {ResBw : Nat} {BWs : List Nat}

/-- The laws of `join` alone: commutative, associative and idempotent. -/
structure IsJoinSemilattice {bw : Nat} (dom : Domain ρ D bw) : Prop where
  join_comm : ∀ a b, dom.join a b = dom.join b a
  join_assoc : ∀ a b c, dom.join (dom.join a b) c = dom.join a (dom.join b c)
  join_idem : ∀ a, dom.join a a = a

/-- At every position, every value of the `toConcrete()` of the first tuple's argument
occurs in the `toConcrete()` of the second tuple's argument. -/
def concreteSubset (dom : (bw : Nat) → Domain ρ D bw) :
    {bws : List Nat} → ArgsTuple D bws → ArgsTuple D bws → Prop
  | _, .nil, .nil => True
  | _, @HTuple.cons _ bw _ x t, .cons y u =>
    (∀ c, c ∈ (dom bw).toConcrete x → c ∈ (dom bw).toConcrete y) ∧ concreteSubset dom t u

/-- One inner sample of a tuple: one concrete value per argument, drawn left to right
and zero-extended; with the generator state after the draws. -/
def sampledCombination (dom : (bw : Nat) → Domain ρ D bw) :
    {bws : List Nat} → ArgsTuple D bws → ρ → List Nat × ρ
  | _, .nil, rng => ([], rng)
  | _, @HTuple.cons _ bw _ x t, rng =>
    (((dom bw).sample_concrete x rng).1.getZExtValue
        :: (sampledCombination dom t ((dom bw).sample_concrete x rng).2).1,
      (sampledCombination dom t ((dom bw).sample_concrete x rng).2).2)

/-- The `n` inner samples of a tuple, in the order drawn. -/
def sampledCombinations (dom : (bw : Nat) → Domain ρ D bw) {bws : List Nat}
    (args : ArgsTuple D bws) : Nat → ρ → List (List Nat) × ρ
  | 0, rng => ([], rng)
  | n + 1, rng =>
    ((sampledCombination dom args rng).1
        :: (sampledCombinations dom args n (sampledCombination dom args rng).2).1,
      (sampledCombinations dom args n (sampledCombination dom args rng).2).2)

/-- One argument tuple drawn from the random stream: one call of the domain's `rand`
per position, left to right, each on the generator state the previous call left; with
the generator state after the draws. -/
def drawArgs (dom : (bw : Nat) → Domain ρ D bw) : (bws : List Nat) → ρ → ArgsTuple D bws × ρ
  | [], rng => (.nil, rng)
  | bw :: bws, rng =>
    (HTuple.cons ((dom bw).rand rng).1 (drawArgs dom bws ((dom bw).rand rng).2).1,
      (drawArgs dom bws ((dom bw).rand rng).2).2)

/-- The doubly-sampled strategy as the specification words it: for each of `n` tuples
drawn in turn by the domain's `rand`, the tuple paired with the join, from `bottom`, of
`fromConcrete(op(sample))` over its inner samples that the predicate does not reject. The
inner samples of a tuple are drawn after the tuple, and the next tuple after them. -/
def genHighsReference (E : EnumDomain ρ D ResBw BWs) (num_conc_samples : Nat) :
    Nat → ρ → List (Example D ResBw BWs)
  | 0, _ => []
  | n + 1, rng =>
    ((drawArgs E.dom BWs rng).1,
      (((sampledCombinations E.dom (drawArgs E.dom BWs rng).1 num_conc_samples
            (drawArgs E.dom BWs rng).2).1.filter fun vals => !rejected E vals).foldl
        (fun res vals => (E.dom ResBw).join res (abstractResult E vals))
        (E.dom ResBw).bottom))
      :: genHighsReference E num_conc_samples n
          (sampledCombinations E.dom (drawArgs E.dom BWs rng).1 num_conc_samples
            (drawArgs E.dom BWs rng).2).2

/-- The first `k` argument tuples produced by successive `make_random_args` calls. -/
def drawSeq (E : EnumDomain ρ D ResBw BWs) : Nat → ρ → List (ArgsTuple D BWs)
  | 0, _ => []
  | k + 1, rng => (make_random_args E rng).1 :: drawSeq E k (make_random_args E rng).2

/-- The generator state after `k` successive `make_random_args` calls. -/
def rngAfterDraws (E : EnumDomain ρ D ResBw BWs) : Nat → ρ → ρ
  | 0, rng => rng
  | k + 1, rng => rngAfterDraws E k (make_random_args E rng).2

/-- A drawn tuple is kept by `genMids` when its best abstraction is not `bottom`. -/
def keptByGenMids (E : EnumDomain ρ D ResBw BWs) (args : ArgsTuple D BWs) : Bool :=
  !(E.dom ResBw).isBottom (toBestAbst E args)

end StrategyReference

/-! ## Reference notions for the reductions -/

section Reductions

variable {α : Type}

/-- A counting loop `for (i = i0; i < v.size(); ++i) d = op(d, v[i])` whose counter has
`w` bits; `joinAllLoop` and `meetAllLoop` are the instances with 64 and 32 bits. -/
def reduceLoop (w : Nat) (op : α → α → α) (v : List α) : Nat → Nat → α → Option α
  | 0, i, d => if i < v.length then none else some d
  | fuel + 1, i, d =>
    if h : i < v.length then
      reduceLoop w op v fuel ((i + 1) % 2 ^ w) (op d (v.get ⟨i, h⟩))
    else some d

/-- The fold of a collection by `op`: `e` for the empty collection, else the elements
combined from left to right. -/
def foldAll (op : α → α → α) (e : α) : List α → α
  | [] => e
  | v0 :: rest => rest.foldl op v0

end Reductions

/-! ## Lemmas on `operator==` -/

section Lemmas

variable {ρ : Type} {D : Nat → Type} {ResBw : Nat} {BWs : List Nat}

theorem opEqLoop_iff {bw : Nat} (dom : Domain ρ D bw) (a b : D bw) (n : Nat) :
    ∀ i, opEqLoop dom a b i n = true ↔ ∀ k, k < n → dom.idx a (i + k) = dom.idx b (i + k) := by
  induction n with
  | zero => intro i; simp [opEqLoop]
  | succ n ih =>
    intro i
    simp only [opEqLoop]
    by_cases h : dom.idx a i = dom.idx b i
    · simp only [h, not_true_eq_false, if_false, ih]
      constructor
      · intro hk k hlt
        cases k with
        | zero => simpa using h
        | succ k =>
          have := hk k (by omega)
          rwa [show i + (k + 1) = i + 1 + k by omega]
      · intro hk k hlt
        have := hk (k + 1) (by omega)
        rwa [show i + (k + 1) = i + 1 + k by omega] at this
    · simp only [h, not_false_eq_true, if_true]
      constructor
      · intro hf; cases hf
      · intro hk
        exact absurd (by simpa using hk 0 (by omega)) h

theorem opEq_iff_components {bw : Nat} (dom : Domain ρ D bw) (a b : D bw) :
    opEq dom a b = true ↔ ∀ i, i < dom.arity → dom.idx a i = dom.idx b i := by
  unfold opEq
  rw [opEqLoop_iff]
  simp

theorem opEq_self {bw : Nat} (dom : Domain ρ D bw) (a : D bw) : opEq dom a a = true :=
  (opEq_iff_components dom a a).2 fun _ _ => rfl

theorem opEq_iff_eq {bw : Nat} (dom : Domain ρ D bw) (hs : StructuralEq dom) (a b : D bw) :
    opEq dom a b = true ↔ a = b := by
  constructor
  · intro h
    exact hs a b ((opEq_iff_components dom a b).1 h)
  · intro h
    subst h
    exact opEq_self dom a

/-! ## Lemmas on the traversal of the concrete cross-product -/

theorem foldl_skip_eq_foldl_filter {α β : Type} (f : β → α → β) (p : α → Bool) (l : List α) :
    ∀ b, l.foldl (fun acc x => if p x then f acc x else acc) b = (l.filter p).foldl f b := by
  induction l with
  | nil => intro b; rfl
  | cons x l ih =>
    intro b
    by_cases h : p x = true
    · simp [List.filter, h, ih]
    · simp [List.filter, h, ih]

theorem take_succ_set (cur : List Nat) (I z : Nat) (h : I < cur.length) :
    (cur.set I z).take (I + 1) = cur.take I ++ [z] := by
  induction cur generalizing I with
  | nil => simp at h
  | cons c cur ih =>
    cases I with
    | zero => simp
    | succ I =>
      simp only [List.length_cons] at h
      simp [ih I (by omega)]

theorem take_set_self (cur : List Nat) (I z : Nat) : (cur.set I z).take I = cur.take I := by
  induction cur generalizing I with
  | nil => simp
  | cons c cur ih =>
    cases I with
    | zero => simp
    | succ I => simp [ih I]

theorem for_each_conc_combination_eq {σ : Type} (body : List Nat → σ → σ) :
    ∀ (bws : List Nat) (cs : ConcSets bws) (I : Nat) (cur : List Nat) (s : σ),
      I + bws.length = cur.length →
      ∃ cur1, for_each_conc_combination body I bws cs (cur, s)
          = (cur1, (crossProduct bws cs).foldl (fun s t => body (cur.take I ++ t) s) s)
        ∧ cur1.length = cur.length ∧ cur1.take I = cur.take I := by
  intro bws
  induction bws with
  | nil =>
    intro cs I cur s hlen
    cases cs
    refine ⟨cur, ?_, rfl, rfl⟩
    simp only [List.length_nil, Nat.add_zero] at hlen
    simp [for_each_conc_combination, crossProduct, hlen]
  | cons bw bws ih =>
    intro cs I cur s hlen
    cases cs with
    | cons vec rest =>
      simp only [for_each_conc_combination, crossProduct]
      simp only [List.length_cons] at hlen
      induction vec generalizing cur s with
      | nil => exact ⟨cur, by simp, rfl, rfl⟩
      | cons bv vec ihv =>
        obtain ⟨cur1, h1, hl1, ht1⟩ :=
          ih rest (I + 1) (cur.set I bv.getZExtValue) s (by simp; omega)
        have hl1' : I + (bws.length + 1) = cur1.length := by
          rw [hl1]; simp; omega
        obtain ⟨cur2, h2, hl2, ht2⟩ := ihv cur1
          ((crossProduct bws rest).foldl
            (fun s t => body ((cur.set I bv.getZExtValue).take (I + 1) ++ t) s) s) hl1'
        have hpre : cur1.take I = cur.take I := by
          have := congrArg (List.take I) ht1
          simpa [List.take_take, take_set_self] using this
        refine ⟨cur2, ?_, ?_, ?_⟩
        · simp only [List.foldl_cons, h1, h2, List.flatMap_cons, List.foldl_append,
            List.foldl_map, hpre]
          rw [take_succ_set cur I _ (by omega)]
          simp
        · rw [hl2, hl1]; simp
        · rw [ht2, hpre]

theorem toBestAbstBody_eq (E : EnumDomain ρ D ResBw BWs) (vals : List Nat) (res : D ResBw) :
    toBestAbstBody E vals res
      = if (!rejected E vals) = true then (E.dom ResBw).join res (abstractResult E vals)
        else res := by
  unfold toBestAbstBody rejected abstractResult apply_n_ary
  cases E.opCon with
  | none => simp
  | some p =>
    by_cases h : p vals % 2 ^ 64 = 0
    · simp [h]
    · simp [h]

theorem toBestAbst_eq_foldl (E : EnumDomain ρ D ResBw BWs) (args : ArgsTuple D BWs) :
    toBestAbst E args
      = (survivors E args).foldl
          (fun res vals => (E.dom ResBw).join res (abstractResult E vals))
          (E.dom ResBw).bottom := by
  unfold toBestAbst survivors
  obtain ⟨cur1, h1, _, _⟩ :=
    for_each_conc_combination_eq (toBestAbstBody E) BWs (build_concrete_sets E.dom args) 0
      (List.replicate BWs.length 0) (E.dom ResBw).bottom (by simp)
  simp only [h1, List.take_zero, List.nil_append]
  rw [← foldl_skip_eq_foldl_filter]
  congr 1
  funext res vals
  exact toBestAbstBody_eq E vals res

/-! ## Lemmas on joins in a bounded lattice -/

theorem join_eq_of_meet_eq {bw : Nat} {dom : Domain ρ D bw} (hl : IsBoundedLattice dom)
    {a x : D bw} (h : dom.meet a x = x) : dom.join a x = a := by
  rw [← h]
  exact hl.join_meet a x

theorem meet_eq_of_join_eq {bw : Nat} {dom : Domain ρ D bw} (hl : IsBoundedLattice dom)
    {a x : D bw} (h : dom.join a x = a) : dom.meet a x = x := by
  have h1 : dom.meet x (dom.join x a) = x := hl.meet_join x a
  rw [hl.join_comm x a, h, hl.meet_comm x a] at h1
  exact h1

theorem foldl_join_absorbs_init {bw : Nat} {dom : Domain ρ D bw} (hl : IsBoundedLattice dom)
    {α : Type} (g : α → D bw) (xs : List α) :
    ∀ acc, dom.join (xs.foldl (fun r v => dom.join r (g v)) acc) acc
      = xs.foldl (fun r v => dom.join r (g v)) acc := by
  induction xs with
  | nil => intro acc; exact hl.join_idem acc
  | cons x xs ih =>
    intro acc
    simp only [List.foldl_cons]
    have h := ih (dom.join acc (g x))
    rw [← h, hl.join_assoc]
    congr 1
    rw [hl.join_comm (dom.join acc (g x)) acc, ← hl.join_assoc, hl.join_idem]

theorem foldl_join_absorbs_mem {bw : Nat} {dom : Domain ρ D bw} (hl : IsBoundedLattice dom)
    {α : Type} (g : α → D bw) (xs : List α) :
    ∀ acc x, x ∈ xs → dom.join (xs.foldl (fun r v => dom.join r (g v)) acc) (g x)
      = xs.foldl (fun r v => dom.join r (g v)) acc := by
  induction xs with
  | nil => intro acc x hx; cases hx
  | cons y xs ih =>
    intro acc x hx
    simp only [List.foldl_cons]
    rcases List.mem_cons.1 hx with hxy | hxs
    · subst hxy
      have h := foldl_join_absorbs_init hl g xs (dom.join acc (g x))
      rw [← h, hl.join_assoc]
      congr 1
      rw [hl.join_assoc, hl.join_idem]
    · exact ih _ x hxs

theorem join_foldl_eq_self {bw : Nat} {dom : Domain ρ D bw} (hl : IsBoundedLattice dom)
    {α : Type} (g : α → D bw) (u : D bw) (xs : List α) :
    ∀ acc, dom.join u acc = u → (∀ x, x ∈ xs → dom.join u (g x) = u) →
      dom.join u (xs.foldl (fun r v => dom.join r (g v)) acc) = u := by
  induction xs with
  | nil => intro acc hacc _; exact hacc
  | cons y xs ih =>
    intro acc hacc hx
    simp only [List.foldl_cons]
    apply ih
    · rw [← hl.join_assoc, hacc]
      exact hx y (List.mem_cons_self _ _)
    · intro x hxs
      exact hx x (List.mem_cons_of_mem _ hxs)

theorem meet_foldl_eq_foldl {bw : Nat} {dom : Domain ρ D bw} (hl : IsBoundedLattice dom)
    {α : Type} (g : α → D bw) (u : D bw) (xs : List α)
    (hx : ∀ x, x ∈ xs → dom.meet u (g x) = g x) :
    dom.meet u (xs.foldl (fun r v => dom.join r (g v)) dom.bottom)
      = xs.foldl (fun r v => dom.join r (g v)) dom.bottom := by
  apply meet_eq_of_join_eq hl
  apply join_foldl_eq_self hl
  · rw [hl.join_comm]
    exact hl.bottom_join u
  · intro x hxs
    exact join_eq_of_meet_eq hl (hx x hxs)

theorem meet_toBestAbst_abstractResult (E : EnumDomain ρ D ResBw BWs)
    (hl : IsBoundedLattice (E.dom ResBw)) (args : ArgsTuple D BWs) (vals : List Nat)
    (hv : vals ∈ survivors E args) :
    (E.dom ResBw).meet (toBestAbst E args) (abstractResult E vals) = abstractResult E vals := by
  apply meet_eq_of_join_eq hl
  rw [toBestAbst_eq_foldl]
  exact foldl_join_absorbs_mem hl (abstractResult E) _ _ vals hv

theorem mem_survivors (E : EnumDomain ρ D ResBw BWs) (args : ArgsTuple D BWs)
    (vals : List Nat) :
    vals ∈ survivors E args
      ↔ vals ∈ crossProduct BWs (build_concrete_sets E.dom args) ∧ rejected E vals = false := by
  simp [survivors, List.mem_filter]

/-! ## Lemmas on the sign domain -/

theorem signDomain_lattice (bw : Nat) : IsBoundedLattice (signDomain bw) where
  join_comm := by intro a b; cases a <;> cases b <;> rfl
  join_assoc := by intro a b c; cases a <;> cases b <;> cases c <;> rfl
  join_idem := by intro a; cases a <;> rfl
  meet_comm := by intro a b; cases a <;> cases b <;> rfl
  meet_assoc := by intro a b c; cases a <;> cases b <;> cases c <;> rfl
  meet_idem := by intro a; cases a <;> rfl
  join_meet := by intro a b; cases a <;> cases b <;> rfl
  meet_join := by intro a b; cases a <;> cases b <;> rfl
  bottom_join := by intro a; cases a <;> rfl

theorem signDomain_structural : StructuralEq (signDomain 4) := by
  intro a b h
  have h0 := h 0 (by decide)
  have h1 := h 1 (by decide)
  have h2 := h 2 (by decide)
  cases a <;> cases b <;> first
    | rfl
    | exact absurd h0 (by decide)
    | exact absurd h1 (by decide)
    | exact absurd h2 (by decide)

theorem signDomain_ne_bottom_concrete (s : Sign) (h : s ≠ Sign.bottom) :
    Sign.toConcrete 4 s ≠ [] := by
  cases s
  · exact absurd rfl h
  all_goals decide

theorem ofCodeNonBottom_ne_bottom (n : Nat) : Sign.ofCodeNonBottom n ≠ Sign.bottom := by
  unfold Sign.ofCodeNonBottom
  split <;> simp

/-! ## Lemmas on empty cross-products -/

theorem crossProduct_eq_nil_of_empty (dom : (bw : Nat) → Domain ρ D bw) :
    ∀ {bws : List Nat} (args : ArgsTuple D bws),
      (∃ c, c ∈ HTuple.toList args ∧ (dom c.1).toConcrete c.2 = []) →
      crossProduct bws (build_concrete_sets dom args) = [] := by
  intro bws args
  induction args with
  | nil => rintro ⟨c, hc, _⟩; cases hc
  | cons x t ih =>
    rintro ⟨c, hc, he⟩
    simp only [HTuple.toList, List.mem_cons] at hc
    simp only [build_concrete_sets, crossProduct]
    rcases hc with hc | hc
    · subst hc
      simp only at he
      rw [he]
      rfl
    · rw [ih ⟨c, hc, he⟩]
      simp

/-! ## Lemmas on the traversal of the lattice cross-product -/

theorem for_each_combination_cons {σ : Type} {b : Nat} {BWs1 : List Nat}
    (body : ArgsTuple D (b :: BWs1) → σ → σ) (x : D b) :
    ∀ (bws : List Nat) (lat : HTuple (fun bw => List (D bw)) bws) (I : Nat)
      (c : ArgsTuple D BWs1) (s : σ),
      for_each_combination body (I + 1) bws lat (HTuple.cons x c, s)
        = (HTuple.cons x
            (for_each_combination (fun t => body (HTuple.cons x t)) I bws lat (c, s)).1,
          (for_each_combination (fun t => body (HTuple.cons x t)) I bws lat (c, s)).2) := by
  intro bws
  induction bws with
  | nil =>
    intro lat I c s
    cases lat
    simp [for_each_combination]
  | cons bw bws ih =>
    intro lat I c s
    cases lat with
    | cons vec rest =>
      simp only [for_each_combination]
      induction vec generalizing c s with
      | nil => simp
      | cons v vec ihv =>
        simp only [List.foldl_cons, HTuple.setAt]
        rw [ih rest (I + 1) (HTuple.setAt c I bw v) s]
        exact ihv _ _

theorem for_each_combination_eq :
    ∀ (BWs : List Nat) {σ : Type} (body : ArgsTuple D BWs → σ → σ)
      (lat : HTuple (fun bw => List (D bw)) BWs) (cur : ArgsTuple D BWs) (s : σ),
      (for_each_combination body 0 BWs lat (cur, s)).2
        = (latticeProduct BWs lat).foldl (fun s t => body t s) s := by
  intro BWs
  induction BWs with
  | nil =>
    intro σ body lat cur s
    cases lat
    cases cur
    simp [for_each_combination, latticeProduct]
  | cons b BWs ih =>
    intro σ body lat cur s
    cases lat with
    | cons vec rest =>
      simp only [for_each_combination, latticeProduct]
      induction vec generalizing cur s with
      | nil => simp
      | cons v vec ihv =>
        cases cur with
        | cons x c =>
          simp only [List.foldl_cons, HTuple.setAt, dite_true, List.flatMap_cons,
            List.foldl_append, List.foldl_map]
          rw [for_each_combination_cons body v BWs rest 0 c s, ihv]
          rw [ih (fun t => body (HTuple.cons v t)) rest c s]

theorem foldl_push_eq_map {α β : Type} (f : α → β) (l : List α) :
    ∀ acc : List β, l.foldl (fun r a => r ++ [f a]) acc = acc ++ l.map f := by
  induction l with
  | nil => intro acc; simp
  | cons a l ih => intro acc; simp [ih]

theorem genLows_eq (E : EnumDomain ρ D ResBw BWs) :
    genLows E
      = (latticeProduct BWs (enumLattices E.dom BWs)).map fun args => (args, toBestAbst E args) := by
  unfold genLows
  simp only
  rw [for_each_combination_eq, foldl_push_eq_map]
  simp

theorem latticeProduct_length :
    ∀ (bws : List Nat) (lat : HTuple (fun bw => List (D bw)) bws),
      (latticeProduct bws lat).length
        = ((HTuple.toList lat).map fun c => c.2.length).prod := by
  intro bws lat
  induction lat with
  | nil => simp [latticeProduct, HTuple.toList]
  | cons vec rest ih =>
    simp only [latticeProduct, HTuple.toList, List.map_cons, List.prod_cons]
    rw [← ih]
    induction vec with
    | nil => simp
    | cons v vec ihv =>
      simp only [List.flatMap_cons, List.length_append, List.length_map, List.length_cons, ihv]
      ring

theorem enumLattices_toList (dom : (bw : Nat) → Domain ρ D bw) (bws : List Nat) :
    (HTuple.toList (enumLattices dom bws)).map (fun c => c.2.length)
      = bws.map fun bw => (dom bw).enumLattice.length := by
  induction bws with
  | nil => rfl
  | cons bw bws ih => simp [enumLattices, HTuple.toList, ih]

theorem genLows_length_eq (E : EnumDomain ρ D ResBw BWs) :
    (genLows E).length = (BWs.map fun bw => (E.dom bw).enumLattice.length).prod := by
  rw [genLows_eq, List.length_map, latticeProduct_length, enumLattices_toList]

theorem prod_map_of_length_two (l : List Nat) (f : Nat → Nat) (L : Nat)
    (h2 : l.length = 2) (hL : ∀ x, x ∈ l → f x = L) : (l.map f).prod = L * L := by
  match l, h2, hL with
  | [b1, b2], _, hL =>
    simp [hL b1 (by simp), hL b2 (by simp)]

/-! ## Lemmas on `genMids` -/

theorem genMidsWhile_some (E : EnumDomain ρ D ResBw BWs) :
    ∀ (fuel : Nat) (rng : ρ) (r : Example D ResBw BWs × ρ),
      genMidsWhile E fuel rng = some r →
      r.1.2 = toBestAbst E r.1.1 ∧ (E.dom ResBw).isBottom r.1.2 = false := by
  intro fuel
  induction fuel with
  | zero => intro rng r h; simp [genMidsWhile] at h
  | succ fuel ih =>
    intro rng r h
    simp only [genMidsWhile] at h
    by_cases hb : (E.dom ResBw).isBottom (toBestAbst E (make_random_args E rng).1) = true
    · simp only [hb, Bool.not_true, Bool.false_eq_true, if_false] at h
      exact ih _ r h
    · simp only [Bool.not_eq_true] at hb
      simp only [hb, Bool.not_false, if_true, Option.some.injEq] at h
      subst h
      exact ⟨rfl, hb⟩

theorem genMidsWhile_mono (E : EnumDomain ρ D ResBw BWs) :
    ∀ (fuel : Nat) (rng : ρ) (r : Example D ResBw BWs × ρ),
      genMidsWhile E fuel rng = some r → genMidsWhile E (fuel + 1) rng = some r := by
  intro fuel
  induction fuel with
  | zero => intro rng r h; simp [genMidsWhile] at h
  | succ fuel ih =>
    intro rng r h
    rw [genMidsWhile] at h ⊢
    by_cases hb : (E.dom ResBw).isBottom (toBestAbst E (make_random_args E rng).1) = true
    · simp only [hb, Bool.not_true, Bool.false_eq_true, if_false] at h ⊢
      exact ih _ r h
    · simp only [Bool.not_eq_true] at hb
      simp only [hb, Bool.not_false, if_true] at h ⊢
      exact h

theorem genMidsFor_some (E : EnumDomain ρ D ResBw BWs) (fuel : Nat) :
    ∀ (n : Nat) (st r : List (Example D ResBw BWs) × ρ),
      genMidsFor E fuel n st = some r →
      r.1.length = st.1.length + n
        ∧ ∀ ex, ex ∈ r.1 → ex ∈ st.1
            ∨ (ex.2 = toBestAbst E ex.1 ∧ (E.dom ResBw).isBottom ex.2 = false) := by
  intro n
  induction n with
  | zero =>
    intro st r h
    simp only [genMidsFor, Option.some.injEq] at h
    subst h
    exact ⟨rfl, fun ex hex => Or.inl hex⟩
  | succ n ih =>
    intro st r h
    simp only [genMidsFor] at h
    cases hw : genMidsWhile E fuel st.2 with
    | none => simp [hw] at h
    | some w =>
      simp only [hw] at h
      obtain ⟨hlen, hall⟩ := ih _ r h
      refine ⟨?_, ?_⟩
      · simp only [List.length_append, List.length_singleton] at hlen
        omega
      · intro ex hex
        rcases hall ex hex with hmem | hgood
        · simp only [List.mem_append, List.mem_singleton] at hmem
          rcases hmem with hmem | hmem
          · exact Or.inl hmem
          · subst hmem
            exact Or.inr (genMidsWhile_some E fuel st.2 w hw)
        · exact Or.inr hgood

theorem genMidsFor_mono (E : EnumDomain ρ D ResBw BWs) (fuel : Nat) :
    ∀ (n : Nat) (st r : List (Example D ResBw BWs) × ρ),
      genMidsFor E fuel n st = some r → genMidsFor E (fuel + 1) n st = some r := by
  intro n
  induction n with
  | zero => intro st r h; simpa [genMidsFor] using h
  | succ n ih =>
    intro st r h
    simp only [genMidsFor] at h ⊢
    cases hw : genMidsWhile E fuel st.2 with
    | none => simp [hw] at h
    | some w =>
      simp only [hw] at h
      rw [genMidsWhile_mono E fuel st.2 w hw]
      exact ih _ r h

/-! ## Lemmas on `genHighs` -/

theorem fill_sampled_concretes_fold_spec (dom : (bw : Nat) → Domain ρ D bw) :
    ∀ {bws : List Nat} (args : ArgsTuple D bws) (i : Nat) (st : SampleState ρ D)
      (out : List Nat),
      i + bws.length = out.length →
      (∀ c, c ∈ HTuple.toList args → ∀ r,
        ((dom c.1).sample_concrete c.2 r).1 ∈ (dom c.1).toConcrete c.2) →
      ∃ t, t ∈ crossProduct bws (build_concrete_sets dom args)
        ∧ (fill_sampled_concretes_fold dom args i (st, out)).2 = out.take i ++ t := by
  intro bws args
  induction args with
  | nil =>
    intro i st out hlen _
    refine ⟨[], by simp [crossProduct], ?_⟩
    simp only [List.length_nil, Nat.add_zero] at hlen
    simp [fill_sampled_concretes_fold, hlen]
  | @cons bw bws x t ih =>
    intro i st out hlen hs
    simp only [List.length_cons] at hlen
    simp only [fill_sampled_concretes_fold]
    obtain ⟨t1, ht1, hres⟩ :=
      ih (i + 1)
        ⟨((dom bw).sample_concrete x st.rng).2, st.calls ++ [⟨bw, x⟩]⟩
        (out.set i ((dom bw).sample_concrete x st.rng).1.getZExtValue)
        (by simp; omega)
        (fun c hc r => hs c (by simp [HTuple.toList, hc]) r)
    refine ⟨((dom bw).sample_concrete x st.rng).1.getZExtValue :: t1, ?_, ?_⟩
    · simp only [build_concrete_sets, crossProduct, List.mem_flatMap, List.mem_map]
      exact ⟨_, hs ⟨bw, x⟩ (by simp [HTuple.toList]) st.rng, t1, ht1, rfl⟩
    · rw [hres, take_succ_set out i _ (by omega)]
      simp

theorem fill_sampled_concretes_fold_calls (dom : (bw : Nat) → Domain ρ D bw) :
    ∀ {bws : List Nat} (args : ArgsTuple D bws) (i : Nat) (st : SampleState ρ D)
      (out : List Nat),
      (fill_sampled_concretes_fold dom args i (st, out)).1.calls
        = st.calls ++ HTuple.toList args := by
  intro bws args
  induction args with
  | nil => intro i st out; simp [fill_sampled_concretes_fold, HTuple.toList]
  | cons x t ih =>
    intro i st out
    simp only [fill_sampled_concretes_fold, ih, HTuple.toList]
    simp

theorem genHighsInner_succ (E : EnumDomain ρ D ResBw BWs) (args : ArgsTuple D BWs) (n : Nat)
    (st : SampleState ρ D × D ResBw) :
    genHighsInner E args (n + 1) st
      = genHighsInner E args n
          ((fill_sampled_concretes E args st.1 (List.replicate BWs.length 0)).1,
            toBestAbstBody E
              (fill_sampled_concretes E args st.1 (List.replicate BWs.length 0)).2 st.2) := by
  simp only [genHighsInner, toBestAbstBody]
  cases E.opCon with
  | none => rfl
  | some p =>
    simp only
    split <;> rfl

theorem genHighsInner_spec (E : EnumDomain ρ D ResBw BWs) (args : ArgsTuple D BWs)
    (hs : ∀ c, c ∈ HTuple.toList args → ∀ r,
      ((E.dom c.1).sample_concrete c.2 r).1 ∈ (E.dom c.1).toConcrete c.2) :
    ∀ (n : Nat) (st : SampleState ρ D) (acc : D ResBw),
      ∃ l : List (List Nat),
        (∀ v, v ∈ l → v ∈ crossProduct BWs (build_concrete_sets E.dom args))
        ∧ (genHighsInner E args n (st, acc)).2
            = l.foldl (fun r v => toBestAbstBody E v r) acc := by
  intro n
  induction n with
  | zero => intro st acc; exact ⟨[], by simp, rfl⟩
  | succ n ih =>
    intro st acc
    rw [genHighsInner_succ]
    obtain ⟨t, ht, hout⟩ :=
      fill_sampled_concretes_fold_spec E.dom args 0 st (List.replicate BWs.length 0)
        (by simp) hs
    simp only [List.take_zero, List.nil_append] at hout
    obtain ⟨l, hl, hres⟩ :=
      ih (fill_sampled_concretes E args st (List.replicate BWs.length 0)).1
        (toBestAbstBody E (fill_sampled_concretes E args st (List.replicate BWs.length 0)).2
          acc)
    refine ⟨t :: l, ?_, ?_⟩
    · intro v hv
      rcases List.mem_cons.1 hv with h | h
      · rw [h]; exact ht
      · exact hl v h
    · rw [hres]
      simp only [List.foldl_cons]
      unfold fill_sampled_concretes
      rw [hout]

theorem genHighsInner_calls (E : EnumDomain ρ D ResBw BWs) (args : ArgsTuple D BWs) :
    ∀ (n : Nat) (st : SampleState ρ D) (acc : D ResBw),
      (genHighsInner E args n (st, acc)).1.calls
        = st.calls ++ (List.replicate n (HTuple.toList args)).flatten := by
  intro n
  induction n with
  | zero => intro st acc; simp [genHighsInner]
  | succ n ih =>
    intro st acc
    rw [genHighsInner_succ, ih]
    simp only [fill_sampled_concretes, fill_sampled_concretes_fold_calls, List.replicate_succ,
      List.flatten_cons, List.append_assoc]

theorem meet_toBestAbst_sampled (E : EnumDomain ρ D ResBw BWs)
    (hl : IsBoundedLattice (E.dom ResBw)) (args : ArgsTuple D BWs) (l : List (List Nat))
    (hmem : ∀ v, v ∈ l → v ∈ crossProduct BWs (build_concrete_sets E.dom args)) :
    (E.dom ResBw).meet (toBestAbst E args)
        (l.foldl (fun r v => toBestAbstBody E v r) (E.dom ResBw).bottom)
      = l.foldl (fun r v => toBestAbstBody E v r) (E.dom ResBw).bottom := by
  have hfold : l.foldl (fun r v => toBestAbstBody E v r) (E.dom ResBw).bottom
      = (l.filter fun v => !rejected E v).foldl
          (fun r v => (E.dom ResBw).join r (abstractResult E v)) (E.dom ResBw).bottom := by
    rw [← foldl_skip_eq_foldl_filter]
    congr 1
    funext r v
    exact toBestAbstBody_eq E v r
  rw [hfold]
  apply meet_foldl_eq_foldl hl
  intro v hv
  have hv2 := List.mem_filter.1 hv
  apply meet_toBestAbst_abstractResult E hl args v
  rw [mem_survivors]
  exact ⟨hmem v hv2.1, by simpa using hv2.2⟩

theorem make_random_args_fold_mem (dom : (bw : Nat) → Domain ρ D bw) :
    ∀ {bws : List Nat} (t : ArgsTuple D bws) (rng : ρ) (c : Σ bw, D bw),
      c ∈ HTuple.toList (make_random_args_fold dom t rng).1 →
      c.1 ∈ bws ∧ ∃ r, c.2 = ((dom c.1).rand r).1 := by
  intro bws t
  induction t with
  | nil => intro rng c hc; simp [make_random_args_fold, HTuple.toList] at hc
  | cons x t ih =>
    intro rng c hc
    simp only [make_random_args_fold, HTuple.toList, List.mem_cons] at hc
    rcases hc with hc | hc
    · subst hc
      exact ⟨by simp, rng, rfl⟩
    · obtain ⟨h1, h2⟩ := ih _ c hc
      exact ⟨List.mem_cons_of_mem _ h1, h2⟩

theorem genHighsOuter_spec (E : EnumDomain ρ D ResBw BWs) (nc : Nat) :
    ∀ (n : Nat) (st : List (Example D ResBw BWs) × SampleState ρ D),
      ∃ new : List (Example D ResBw BWs),
        (genHighsOuter E nc n st).1 = st.1 ++ new
        ∧ new.length = n
        ∧ (genHighsOuter E nc n st).2.calls
            = st.2.calls
                ++ new.flatMap (fun ex => (List.replicate nc (HTuple.toList ex.1)).flatten)
        ∧ (∀ ex, ex ∈ new → ∀ c, c ∈ HTuple.toList ex.1 →
            c.1 ∈ BWs ∧ ∃ r, c.2 = ((E.dom c.1).rand r).1)
        ∧ (∀ ex, ex ∈ new → ∃ s,
            ex.2 = (genHighsInner E ex.1 nc (s, (E.dom ResBw).bottom)).2) := by
  intro n
  induction n with
  | zero => intro st; exact ⟨[], by simp [genHighsOuter]⟩
  | succ n ih =>
    intro st
    simp only [genHighsOuter]
    obtain ⟨new, h1, h2, h3, h4, h5⟩ :=
      ih (st.1 ++ [((make_random_args E st.2.rng).1,
            (genHighsInner E (make_random_args E st.2.rng).1 nc
              (⟨(make_random_args E st.2.rng).2, st.2.calls⟩, (E.dom ResBw).bottom)).2)],
          (genHighsInner E (make_random_args E st.2.rng).1 nc
              (⟨(make_random_args E st.2.rng).2, st.2.calls⟩, (E.dom ResBw).bottom)).1)
    refine ⟨((make_random_args E st.2.rng).1,
        (genHighsInner E (make_random_args E st.2.rng).1 nc
          (⟨(make_random_args E st.2.rng).2, st.2.calls⟩, (E.dom ResBw).bottom)).2) :: new,
      ?_, ?_, ?_, ?_, ?_⟩
    · rw [h1]; simp
    · simp [h2]
    · rw [h3, genHighsInner_calls]
      simp
    · intro ex hex c hc
      rcases List.mem_cons.1 hex with h | h
      · subst h
        exact make_random_args_fold_mem E.dom _ _ c hc
      · exact h4 ex h c hc
    · intro ex hex
      rcases List.mem_cons.1 hex with h | h
      · subst h
        exact ⟨_, rfl⟩
      · exact h5 ex h

theorem signDomain_sample_mem (bw : Nat) (s : Sign) (r : List Nat)
    (h : Sign.toConcrete bw s ≠ []) :
    ((signDomain bw).sample_concrete s r).1 ∈ (signDomain bw).toConcrete s := by
  simp only [signDomain]
  have hpos : 0 < (Sign.toConcrete bw s).length := List.length_pos.2 h
  rw [List.getD_eq_getElem _ _ (Nat.mod_lt _ hpos)]
  exact List.getElem_mem _

theorem signDomain_meet_intersection : MeetIsIntersection (signDomain 4) := by
  intro a b
  cases a <;> cases b <;> exact ⟨by decide, by decide⟩

theorem signDomain_injective : ConcretizationInjective (signDomain 4) := by
  intro a b h1 h2
  cases a <;> cases b <;> first
    | rfl
    | exact absurd h1 (by decide)
    | exact absurd h2 (by decide)

theorem signDomainNonBottom_rand_concrete (bw : Nat) (hbw : bw ∈ ([4, 4] : List Nat))
    (r : List Nat) :
    (signAddNonBottom.dom bw).toConcrete ((signAddNonBottom.dom bw).rand r).1 ≠ [] := by
  have h4 : bw = 4 := by simpa using hbw
  subst h4
  exact signDomain_ne_bottom_concrete _ (ofCodeNonBottom_ne_bottom _)

/-! ## Lemmas on `joinAll` and `meetAll` -/

theorem joinAllLoop_eq_reduceLoop {bw : Nat} (dom : Domain ρ D bw) (v : List (D bw)) :
    ∀ fuel i d, joinAllLoop dom v fuel i d = reduceLoop 64 dom.join v fuel i d := by
  intro fuel
  induction fuel with
  | zero => intro i d; rfl
  | succ fuel ih => intro i d; simp only [joinAllLoop, reduceLoop, ih]

theorem meetAllLoop_eq_reduceLoop {bw : Nat} (dom : Domain ρ D bw) (v : List (D bw)) :
    ∀ fuel i d, meetAllLoop dom v fuel i d = reduceLoop 32 dom.meet v fuel i d := by
  intro fuel
  induction fuel with
  | zero => intro i d; rfl
  | succ fuel ih => intro i d; simp only [meetAllLoop, reduceLoop, ih]

theorem reduceLoop_eq_foldl {α : Type} (w : Nat) (op : α → α → α) (v : List α)
    (hw : v.length < 2 ^ w) :
    ∀ fuel i d, i ≤ v.length → v.length - i ≤ fuel →
      reduceLoop w op v fuel i d = some ((v.drop i).foldl op d) := by
  intro fuel
  induction fuel with
  | zero =>
    intro i d hi hf
    have hlen : v.length ≤ i := by omega
    simp [reduceLoop, Nat.not_lt.2 hlen, List.drop_eq_nil_of_le hlen]
  | succ fuel ih =>
    intro i d hi hf
    by_cases h : i < v.length
    · simp only [reduceLoop, h, dite_true]
      rw [Nat.mod_eq_of_lt (by omega), ih (i + 1) _ (by omega) (by omega)]
      rw [List.drop_eq_getElem_cons h]
      rfl
    · have hlen : v.length ≤ i := by omega
      simp [reduceLoop, h, List.drop_eq_nil_of_le hlen]

theorem reduceLoop_eq_none {α : Type} (w : Nat) (op : α → α → α) (v : List α)
    (hw : 2 ^ w ≤ v.length) :
    ∀ fuel i d, i < 2 ^ w → reduceLoop w op v fuel i d = none := by
  intro fuel
  induction fuel with
  | zero =>
    intro i d hi
    have h : i < v.length := by omega
    simp [reduceLoop, h]
  | succ fuel ih =>
    intro i d hi
    have h : i < v.length := by omega
    simp only [reduceLoop, h, dite_true]
    exact ih _ _ (Nat.mod_lt _ (Nat.pos_pow_of_pos w (by decide)))

theorem foldAll_perm {α : Type} (op : α → α → α) (hc : ∀ a b, op a b = op b a)
    (ha : ∀ a b c, op (op a b) c = op a (op b c)) (e : α) {l1 l2 : List α}
    (h : l1.Perm l2) : foldAll op e l1 = foldAll op e l2 := by
  have hr : ∀ (l : List α) (x y z : α), x ∈ l → y ∈ l → op (op z x) y = op (op z y) x := by
    intro l x y z _ _
    rw [ha, ha, hc x y]
  induction h with
  | nil => rfl
  | cons x h _ =>
    exact List.Perm.foldl_eq' h (fun a ha1 b hb1 z => hr _ a b z ha1 hb1) x
  | swap x y l =>
    simp only [foldAll, List.foldl_cons]
    rw [hc y x]
  | trans _ _ ih1 ih2 => exact ih1.trans ih2

theorem joinAll_eq_foldAll {bw : Nat} (dom : Domain ρ D bw) (fuel : Nat) (v : List (D bw))
    (hsize : v.length < 2 ^ 64) (hfuel : v.length ≤ fuel + 1) :
    joinAll dom fuel v = some (foldAll dom.join dom.bottom v) := by
  cases v with
  | nil => rfl
  | cons v0 rest =>
    simp only [joinAll, foldAll, joinAllLoop_eq_reduceLoop]
    rw [reduceLoop_eq_foldl 64 dom.join (v0 :: rest) hsize fuel 1 v0 (by simp)
      (by simp only [List.length_cons] at hfuel ⊢; omega)]
    rfl

theorem meetAll_eq_foldAll {bw : Nat} (dom : Domain ρ D bw) (fuel : Nat) (v : List (D bw))
    (hsize : v.length < 2 ^ 32) (hfuel : v.length ≤ fuel + 1) :
    meetAll dom fuel v = some (foldAll dom.meet dom.top v) := by
  cases v with
  | nil => rfl
  | cons v0 rest =>
    simp only [meetAll, foldAll, meetAllLoop_eq_reduceLoop]
    rw [reduceLoop_eq_foldl 32 dom.meet (v0 :: rest) hsize fuel 1 v0 (by simp)
      (by simp only [List.length_cons] at hfuel ⊢; omega)]
    rfl

theorem meetAll_eq_none {bw : Nat} (dom : Domain ρ D bw) (fuel : Nat) (v : List (D bw))
    (hsize : 2 ^ 32 ≤ v.length) : meetAll dom fuel v = none := by
  cases v with
  | nil => simp at hsize
  | cons v0 rest =>
    simp only [meetAll, meetAllLoop_eq_reduceLoop]
    exact reduceLoop_eq_none 32 dom.meet (v0 :: rest) hsize fuel 1 v0 (by decide)

/-- For vectors whose size fits the loop counters (so fewer than `2 ^ 32` elements),
both reductions return, given the fuel for their `size - 1` iterations, and a
permutation of the vector gives the same values when the operations are commutative
and associative. -/
theorem joinAll_meetAll_perm {bw : Nat} (dom : Domain ρ D bw)
    (hjc : ∀ a b, dom.join a b = dom.join b a)
    (hja : ∀ a b c, dom.join (dom.join a b) c = dom.join a (dom.join b c))
    (hmc : ∀ a b, dom.meet a b = dom.meet b a)
    (hma : ∀ a b c, dom.meet (dom.meet a b) c = dom.meet a (dom.meet b c))
    (v w : List (D bw)) (hperm : w.Perm v) (hsize : v.length < 2 ^ 32)
    (fuel : Nat) (hfuel : v.length ≤ fuel + 1) :
    ∃ j m, joinAll dom fuel v = some j ∧ joinAll dom fuel w = some j
      ∧ meetAll dom fuel v = some m ∧ meetAll dom fuel w = some m := by
  have hlen : w.length = v.length := hperm.length_eq
  have h64 : v.length < 2 ^ 64 := Nat.lt_trans hsize (by decide)
  refine ⟨foldAll dom.join dom.bottom v, foldAll dom.meet dom.top v,
    joinAll_eq_foldAll dom fuel v h64 hfuel, ?_,
    meetAll_eq_foldAll dom fuel v hsize hfuel, ?_⟩
  · rw [joinAll_eq_foldAll dom fuel w (hlen ▸ h64) (hlen ▸ hfuel),
      foldAll_perm dom.join hjc hja dom.bottom hperm]
  · rw [meetAll_eq_foldAll dom fuel w (hlen ▸ hsize) (hlen ▸ hfuel),
      foldAll_perm dom.meet hmc hma dom.top hperm]

/-! ## Lemmas on a predicate that accepts everything -/

theorem toBestAbstBody_always (dom : (bw : Nat) → Domain ρ D bw) (op p : List Nat → Nat)
    (hp : ∀ vals, apply_n_ary p vals ≠ 0) :
    toBestAbstBody (⟨dom, op, none⟩ : EnumDomain ρ D ResBw BWs)
      = toBestAbstBody (⟨dom, op, some p⟩ : EnumDomain ρ D ResBw BWs) := by
  funext vals res
  simp [toBestAbstBody, hp vals]

theorem toBestAbst_always (dom : (bw : Nat) → Domain ρ D bw) (op p : List Nat → Nat)
    (hp : ∀ vals, apply_n_ary p vals ≠ 0) (args : ArgsTuple D BWs) :
    toBestAbst (⟨dom, op, none⟩ : EnumDomain ρ D ResBw BWs) args
      = toBestAbst (⟨dom, op, some p⟩ : EnumDomain ρ D ResBw BWs) args := by
  unfold toBestAbst
  rw [toBestAbstBody_always dom op p hp]

theorem genLows_always (dom : (bw : Nat) → Domain ρ D bw) (op p : List Nat → Nat)
    (hp : ∀ vals, apply_n_ary p vals ≠ 0) :
    genLows (⟨dom, op, none⟩ : EnumDomain ρ D ResBw BWs)
      = genLows (⟨dom, op, some p⟩ : EnumDomain ρ D ResBw BWs) := by
  rw [genLows_eq, genLows_eq]
  apply List.map_congr_left
  intro args _
  rw [toBestAbst_always dom op p hp]

theorem genHighsInner_always (dom : (bw : Nat) → Domain ρ D bw) (op p : List Nat → Nat)
    (hp : ∀ vals, apply_n_ary p vals ≠ 0) (args : ArgsTuple D BWs) :
    ∀ (n : Nat) (st : SampleState ρ D × D ResBw),
      genHighsInner (⟨dom, op, none⟩ : EnumDomain ρ D ResBw BWs) args n st
        = genHighsInner (⟨dom, op, some p⟩ : EnumDomain ρ D ResBw BWs) args n st := by
  intro n
  induction n with
  | zero => intro st; rfl
  | succ n ih =>
    intro st
    rw [genHighsInner_succ, genHighsInner_succ, toBestAbstBody_always dom op p hp, ih]
    rfl

theorem genHighsOuter_always (dom : (bw : Nat) → Domain ρ D bw) (op p : List Nat → Nat)
    (hp : ∀ vals, apply_n_ary p vals ≠ 0) (nc : Nat) :
    ∀ (n : Nat) (st : List (Example D ResBw BWs) × SampleState ρ D),
      genHighsOuter (⟨dom, op, none⟩ : EnumDomain ρ D ResBw BWs) nc n st
        = genHighsOuter (⟨dom, op, some p⟩ : EnumDomain ρ D ResBw BWs) nc n st := by
  intro n
  induction n with
  | zero => intro st; rfl
  | succ n ih =>
    intro st
    simp only [genHighsOuter]
    rw [ih]
    simp only [genHighsInner_always dom op p hp]
    rfl

/-! ## Lemmas relating `genHighs` to its reference -/

theorem fill_sampled_concretes_fold_eq (dom : (bw : Nat) → Domain ρ D bw) :
    ∀ {bws : List Nat} (args : ArgsTuple D bws) (i : Nat) (st : SampleState ρ D)
      (out : List Nat),
      i + bws.length = out.length →
      (fill_sampled_concretes_fold dom args i (st, out)).2
          = out.take i ++ (sampledCombination dom args st.rng).1
        ∧ (fill_sampled_concretes_fold dom args i (st, out)).1.rng
          = (sampledCombination dom args st.rng).2 := by
  intro bws args
  induction args with
  | nil =>
    intro i st out hlen
    simp only [List.length_nil, Nat.add_zero] at hlen
    simp [fill_sampled_concretes_fold, sampledCombination, hlen]
  | @cons bw bws x t ih =>
    intro i st out hlen
    simp only [List.length_cons] at hlen
    simp only [fill_sampled_concretes_fold, sampledCombination]
    obtain ⟨h1, h2⟩ :=
      ih (i + 1)
        ⟨((dom bw).sample_concrete x st.rng).2, st.calls ++ [⟨bw, x⟩]⟩
        (out.set i ((dom bw).sample_concrete x st.rng).1.getZExtValue)
        (by simp; omega)
    refine ⟨?_, h2⟩
    rw [h1, take_succ_set out i _ (by omega)]
    simp

theorem genHighsInner_eq (E : EnumDomain ρ D ResBw BWs) (args : ArgsTuple D BWs) :
    ∀ (n : Nat) (st : SampleState ρ D) (acc : D ResBw),
      (genHighsInner E args n (st, acc)).2
          = (sampledCombinations E.dom args n st.rng).1.foldl
              (fun r v => toBestAbstBody E v r) acc
        ∧ (genHighsInner E args n (st, acc)).1.rng
          = (sampledCombinations E.dom args n st.rng).2 := by
  intro n
  induction n with
  | zero => intro st acc; exact ⟨rfl, rfl⟩
  | succ n ih =>
    intro st acc
    rw [genHighsInner_succ]
    obtain ⟨hout, hrng⟩ :=
      fill_sampled_concretes_fold_eq E.dom args 0 st (List.replicate BWs.length 0) (by simp)
    simp only [List.take_zero, List.nil_append] at hout
    obtain ⟨h1, h2⟩ :=
      ih (fill_sampled_concretes E args st (List.replicate BWs.length 0)).1
        (toBestAbstBody E (fill_sampled_concretes E args st (List.replicate BWs.length 0)).2
          acc)
    unfold fill_sampled_concretes at h1 h2 ⊢
    rw [h1, h2, hrng, hout]
    exact ⟨rfl, rfl⟩

theorem foldl_toBestAbstBody_eq (E : EnumDomain ρ D ResBw BWs) (l : List (List Nat))
    (acc : D ResBw) :
    l.foldl (fun r v => toBestAbstBody E v r) acc
      = (l.filter fun v => !rejected E v).foldl
          (fun r v => (E.dom ResBw).join r (abstractResult E v)) acc := by
  rw [← foldl_skip_eq_foldl_filter]
  congr 1
  funext r v
  exact toBestAbstBody_eq E v r

theorem make_random_args_fold_eq_drawArgs (dom : (bw : Nat) → Domain ρ D bw) :
    ∀ {bws : List Nat} (t : ArgsTuple D bws) (rng : ρ),
      make_random_args_fold dom t rng = drawArgs dom bws rng := by
  intro bws t
  induction t with
  | nil => intro rng; rfl
  | cons x t ih =>
    intro rng
    simp only [make_random_args_fold, drawArgs, ih]

theorem make_random_args_eq_drawArgs (E : EnumDomain ρ D ResBw BWs) (rng : ρ) :
    make_random_args E rng = drawArgs E.dom BWs rng :=
  make_random_args_fold_eq_drawArgs E.dom _ rng

theorem genHighsOuter_eq (E : EnumDomain ρ D ResBw BWs) (nc : Nat) :
    ∀ (n : Nat) (st : List (Example D ResBw BWs) × SampleState ρ D),
      (genHighsOuter E nc n st).1 = st.1 ++ genHighsReference E nc n st.2.rng := by
  intro n
  induction n with
  | zero => intro st; simp [genHighsOuter, genHighsReference]
  | succ n ih =>
    intro st
    simp only [genHighsOuter, genHighsReference, make_random_args_eq_drawArgs]
    rw [ih]
    obtain ⟨h1, h2⟩ :=
      genHighsInner_eq E (drawArgs E.dom BWs st.2.rng).1 nc
        ⟨(drawArgs E.dom BWs st.2.rng).2, st.2.calls⟩ (E.dom ResBw).bottom
    simp only [h1, h2, foldl_toBestAbstBody_eq, List.append_assoc, List.singleton_append]

theorem genHighsReference_length (E : EnumDomain ρ D ResBw BWs) (nc : Nat) :
    ∀ (n : Nat) (rng : ρ), (genHighsReference E nc n rng).length = n := by
  intro n
  induction n with
  | zero => intro rng; rfl
  | succ n ih => intro rng; simp [genHighsReference, ih]

theorem genHighsReference_no_samples (E : EnumDomain ρ D ResBw BWs) :
    ∀ (n : Nat) (rng : ρ),
      (genHighsReference E 0 n rng).map (fun ex => ex.2)
        = List.replicate n (E.dom ResBw).bottom := by
  intro n
  induction n with
  | zero => intro rng; rfl
  | succ n ih =>
    intro rng
    simp only [genHighsReference, List.map_cons, List.replicate_succ, ih, sampledCombinations,
      List.filter_nil, List.foldl_nil]

/-! ## Lemmas on the dependence of `toBestAbst` on the concrete sets -/

theorem crossProduct_subset (dom : (bw : Nat) → Domain ρ D bw) :
    ∀ {bws : List Nat} (a b : ArgsTuple D bws), concreteSubset dom a b →
      ∀ v, v ∈ crossProduct bws (build_concrete_sets dom a) →
        v ∈ crossProduct bws (build_concrete_sets dom b) := by
  intro bws a
  induction a with
  | nil =>
    intro b
    cases b
    intro _ v hv
    exact hv
  | cons x t ih =>
    intro b
    cases b with
    | cons y u =>
      intro h v hv
      simp only [concreteSubset] at h
      simp only [build_concrete_sets, crossProduct, List.mem_flatMap, List.mem_map] at hv ⊢
      obtain ⟨bv, hbv, t1, ht1, hvt⟩ := hv
      exact ⟨bv, h.1 bv hbv, t1, ih u h.2 t1 ht1, hvt⟩

theorem survivors_subset (E : EnumDomain ρ D ResBw BWs) (a b : ArgsTuple D BWs)
    (h : concreteSubset E.dom a b) :
    ∀ v, v ∈ survivors E a → v ∈ survivors E b := by
  intro v hv
  rw [mem_survivors] at hv ⊢
  exact ⟨crossProduct_subset E.dom a b h v hv.1, hv.2⟩

theorem semilattice_foldl_absorbs_init {bw : Nat} {dom : Domain ρ D bw}
    (hj : IsJoinSemilattice dom) {α : Type} (g : α → D bw) (xs : List α) :
    ∀ acc, dom.join (xs.foldl (fun r v => dom.join r (g v)) acc) acc
      = xs.foldl (fun r v => dom.join r (g v)) acc := by
  induction xs with
  | nil => intro acc; exact hj.join_idem acc
  | cons x xs ih =>
    intro acc
    simp only [List.foldl_cons]
    have h := ih (dom.join acc (g x))
    rw [← h, hj.join_assoc]
    congr 1
    rw [hj.join_comm (dom.join acc (g x)) acc, ← hj.join_assoc, hj.join_idem]

theorem semilattice_foldl_absorbs_mem {bw : Nat} {dom : Domain ρ D bw}
    (hj : IsJoinSemilattice dom) {α : Type} (g : α → D bw) (xs : List α) :
    ∀ acc x, x ∈ xs → dom.join (xs.foldl (fun r v => dom.join r (g v)) acc) (g x)
      = xs.foldl (fun r v => dom.join r (g v)) acc := by
  induction xs with
  | nil => intro acc x hx; cases hx
  | cons y xs ih =>
    intro acc x hx
    simp only [List.foldl_cons]
    rcases List.mem_cons.1 hx with hxy | hxs
    · subst hxy
      have h := semilattice_foldl_absorbs_init hj g xs (dom.join acc (g x))
      rw [← h, hj.join_assoc]
      congr 1
      rw [hj.join_assoc, hj.join_idem]
    · exact ih _ x hxs

theorem semilattice_join_foldl_eq_self {bw : Nat} {dom : Domain ρ D bw}
    (hj : IsJoinSemilattice dom) {α : Type} (g : α → D bw) (u : D bw) (xs : List α) :
    ∀ acc, dom.join u acc = u → (∀ x, x ∈ xs → dom.join u (g x) = u) →
      dom.join u (xs.foldl (fun r v => dom.join r (g v)) acc) = u := by
  induction xs with
  | nil => intro acc hacc _; exact hacc
  | cons y xs ih =>
    intro acc hacc hx
    simp only [List.foldl_cons]
    apply ih
    · rw [← hj.join_assoc, hacc]
      exact hx y (List.mem_cons_self _ _)
    · intro x hxs
      exact hx x (List.mem_cons_of_mem _ hxs)

theorem semilattice_foldl_eq_of_same_members {bw : Nat} {dom : Domain ρ D bw}
    (hj : IsJoinSemilattice dom) {α : Type} (g : α → D bw) (xs ys : List α) (acc : D bw)
    (hxy : ∀ x, x ∈ xs → x ∈ ys) (hyx : ∀ y, y ∈ ys → y ∈ xs) :
    xs.foldl (fun r v => dom.join r (g v)) acc
      = ys.foldl (fun r v => dom.join r (g v)) acc := by
  have h1 : dom.join (xs.foldl (fun r v => dom.join r (g v)) acc)
      (ys.foldl (fun r v => dom.join r (g v)) acc)
      = xs.foldl (fun r v => dom.join r (g v)) acc :=
    semilattice_join_foldl_eq_self hj g _ ys acc
      (semilattice_foldl_absorbs_init hj g xs acc)
      (fun y hy => semilattice_foldl_absorbs_mem hj g xs acc y (hyx y hy))
  have h2 : dom.join (ys.foldl (fun r v => dom.join r (g v)) acc)
      (xs.foldl (fun r v => dom.join r (g v)) acc)
      = ys.foldl (fun r v => dom.join r (g v)) acc :=
    semilattice_join_foldl_eq_self hj g _ xs acc
      (semilattice_foldl_absorbs_init hj g ys acc)
      (fun x hx => semilattice_foldl_absorbs_mem hj g ys acc x (hxy x hx))
  rw [← h1, hj.join_comm, h2]

/-! ## Lemmas relating `genMids` to the sequence of draws -/

theorem drawSeq_add (E : EnumDomain ρ D ResBw BWs) :
    ∀ (j k : Nat) (rng : ρ),
      drawSeq E (j + k) rng = drawSeq E j rng ++ drawSeq E k (rngAfterDraws E j rng) := by
  intro j
  induction j with
  | zero => intro k rng; simp [drawSeq, rngAfterDraws]
  | succ j ih =>
    intro k rng
    rw [show j + 1 + k = (j + k) + 1 by omega]
    simp only [drawSeq, rngAfterDraws, ih, List.cons_append]

theorem rngAfterDraws_add (E : EnumDomain ρ D ResBw BWs) :
    ∀ (j k : Nat) (rng : ρ),
      rngAfterDraws E (j + k) rng = rngAfterDraws E k (rngAfterDraws E j rng) := by
  intro j
  induction j with
  | zero => intro k rng; simp [rngAfterDraws]
  | succ j ih =>
    intro k rng
    rw [show j + 1 + k = (j + k) + 1 by omega]
    simp only [rngAfterDraws, ih]

theorem genMidsWhile_draws (E : EnumDomain ρ D ResBw BWs) :
    ∀ (fuel : Nat) (rng : ρ) (r : Example D ResBw BWs × ρ),
      genMidsWhile E fuel rng = some r →
      ∃ j, r.2 = rngAfterDraws E j rng
        ∧ (drawSeq E j rng).filter (keptByGenMids E) = [r.1.1]
        ∧ r.1.2 = toBestAbst E r.1.1 := by
  intro fuel
  induction fuel with
  | zero => intro rng r h; simp [genMidsWhile] at h
  | succ fuel ih =>
    intro rng r h
    simp only [genMidsWhile] at h
    by_cases hb : (E.dom ResBw).isBottom (toBestAbst E (make_random_args E rng).1) = true
    · simp only [hb, Bool.not_true, Bool.false_eq_true, if_false] at h
      obtain ⟨j, h1, h2, h3⟩ := ih _ r h
      refine ⟨j + 1, ?_, ?_, h3⟩
      · simpa only [rngAfterDraws] using h1
      · simp only [drawSeq, List.filter, keptByGenMids, hb, Bool.not_true]
        exact h2
    · simp only [Bool.not_eq_true] at hb
      simp only [hb, Bool.not_false, if_true, Option.some.injEq] at h
      subst h
      refine ⟨1, rfl, ?_, rfl⟩
      simp [drawSeq, List.filter, keptByGenMids, hb]

theorem genMidsFor_draws (E : EnumDomain ρ D ResBw BWs) (fuel : Nat) :
    ∀ (n : Nat) (st r : List (Example D ResBw BWs) × ρ),
      genMidsFor E fuel n st = some r →
      ∃ k, r.2 = rngAfterDraws E k st.2
        ∧ ((drawSeq E k st.2).filter (keptByGenMids E)).length = n
        ∧ r.1 = st.1 ++ ((drawSeq E k st.2).filter (keptByGenMids E)).map
            (fun a => (a, toBestAbst E a)) := by
  intro n
  induction n with
  | zero =>
    intro st r h
    simp only [genMidsFor, Option.some.injEq] at h
    subst h
    exact ⟨0, rfl, rfl, by simp [drawSeq]⟩
  | succ n ih =>
    intro st r h
    simp only [genMidsFor] at h
    cases hw : genMidsWhile E fuel st.2 with
    | none => simp [hw] at h
    | some w =>
      simp only [hw] at h
      obtain ⟨j, hj1, hj2, hj3⟩ := genMidsWhile_draws E fuel st.2 w hw
      obtain ⟨k, hk1, hk2, hk3⟩ := ih _ r h
      simp only at hk1 hk2 hk3
      refine ⟨j + k, ?_, ?_, ?_⟩
      · rw [rngAfterDraws_add, ← hj1]
        exact hk1
      · rw [drawSeq_add, List.filter_append, hj2, ← hj1]
        simp only [List.length_append, List.length_singleton, hk2]
        omega
      · rw [drawSeq_add, List.filter_append, hj2, ← hj1, hk3]
        have hw1 : w.1 = (w.1.1, toBestAbst E w.1.1) := Prod.ext rfl hj3
        simp only [List.map_append, List.map_cons, List.map_nil, List.append_assoc,
          List.singleton_append, ← hw1]

/-! ## Lemmas relating the helpers' tuples to the arguments and the domain -/

theorem crossProduct_build_concrete_sets (dom : (bw : Nat) → Domain ρ D bw) :
    ∀ {bws : List Nat} (args : ArgsTuple D bws),
      crossProduct bws (build_concrete_sets dom args) = concreteCombinations dom args := by
  intro bws args
  induction args with
  | nil => rfl
  | cons x t ih => simp only [build_concrete_sets, crossProduct, concreteCombinations, ih]

theorem latticeProduct_enumLattices (dom : (bw : Nat) → Domain ρ D bw) :
    ∀ bws : List Nat, latticeProduct bws (enumLattices dom bws) = latticeTuples dom bws := by
  intro bws
  induction bws with
  | nil => rfl
  | cons bw bws ih => simp only [enumLattices, latticeProduct, latticeTuples, ih]

/-! ## Lemmas on the sign domain with two listings -/

theorem listedSignDomain_semilattice (bw : Nat) : IsJoinSemilattice (listedSignDomain bw) where
  join_comm := by
    intro a b
    have h : Sign.join a.sign b.sign = Sign.join b.sign a.sign :=
      (signDomain_lattice bw).join_comm a.sign b.sign
    show ListedSign.mk (Sign.join a.sign b.sign) (a.relisted || b.relisted)
      = ListedSign.mk (Sign.join b.sign a.sign) (b.relisted || a.relisted)
    rw [h, Bool.or_comm]
  join_assoc := by
    intro a b c
    have h : Sign.join (Sign.join a.sign b.sign) c.sign
        = Sign.join a.sign (Sign.join b.sign c.sign) :=
      (signDomain_lattice bw).join_assoc a.sign b.sign c.sign
    show ListedSign.mk (Sign.join (Sign.join a.sign b.sign) c.sign)
        ((a.relisted || b.relisted) || c.relisted)
      = ListedSign.mk (Sign.join a.sign (Sign.join b.sign c.sign))
        (a.relisted || (b.relisted || c.relisted))
    rw [h, Bool.or_assoc]
  join_idem := by
    intro a
    have h : Sign.join a.sign a.sign = a.sign := (signDomain_lattice bw).join_idem a.sign
    show ListedSign.mk (Sign.join a.sign a.sign) (a.relisted || a.relisted) = a
    rw [h, Bool.or_self]

end Lemmas

/-! ## The claims -/

section Claims

variable {ρ : Type} {D : Nat → Type} {ResBw : Nat} {BWs : List Nat}

/-- C1. For every argument tuple, concrete operation and optional predicate,
`toBestAbst(args)` is the left fold, from `bottom()`, of
`res := res.join(fromConcrete(op(vals)))` over the combinations `vals` of the
cross-product of the arguments' `toConcrete()` lists (first argument outermost, values
zero-extended), skipping exactly the combinations a supplied predicate maps to 0. -/
theorem toBestAbst_is_fold_over_cross_product (E : EnumDomain ρ D ResBw BWs)
    (args : ArgsTuple D BWs) :
    toBestAbst E args
      = ((concreteCombinations E.dom args).filter fun vals =>
            match E.opCon with
            | some p => !decide (p vals % 2 ^ 64 = 0)
            | none => true).foldl
          (fun res vals =>
            (E.dom ResBw).join res
              ((E.dom ResBw).fromConcrete (APInt.ofWord ResBw (E.concOp vals % 2 ^ 64))))
          (E.dom ResBw).bottom := by
  rw [toBestAbst_eq_foldl]
  unfold survivors abstractResult rejected
  rw [crossProduct_build_concrete_sets]
  congr 2
  funext vals
  cases E.opCon <;> rfl

/-- C2. Soundness of the best abstraction: in a bounded lattice, for every combination
`vals` of the cross-product of the arguments' concrete sets that the predicate does not
reject, `isSuperset(toBestAbst(args), fromConcrete(op(vals)))` holds. -/
theorem toBestAbst_sound (E : EnumDomain ρ D ResBw BWs)
    (hl : IsBoundedLattice (E.dom ResBw)) (args : ArgsTuple D BWs) (vals : List Nat)
    (hmem : vals ∈ crossProduct BWs (build_concrete_sets E.dom args))
    (hok : rejected E vals = false) :
    isSuperset (E.dom ResBw) (toBestAbst E args)
      ((E.dom ResBw).fromConcrete (APInt.ofWord ResBw (apply_n_ary E.concOp vals))) = true := by
  unfold isSuperset apply_n_ary
  have h := meet_toBestAbst_abstractResult E hl args vals ((mem_survivors E args vals).2 ⟨hmem, hok⟩)
  unfold abstractResult at h
  rw [h]
  exact opEq_self _ _

/-- Witness of C2: the sign domain, 4-bit addition, the arguments `(positive, positive)`
and the combination `(3, 5)`, whose sum is negative. -/
theorem toBestAbst_sound_witness :
    IsBoundedLattice (signAdd.dom 4)
      ∧ [3, 5] ∈ crossProduct [4, 4]
          (build_concrete_sets signAdd.dom (.cons Sign.positive (.cons Sign.positive .nil)))
      ∧ rejected signAdd [3, 5] = false
      ∧ isSuperset (signAdd.dom 4)
          (toBestAbst signAdd (.cons Sign.positive (.cons Sign.positive .nil)))
          ((signAdd.dom 4).fromConcrete (APInt.ofWord 4 (apply_n_ary signAdd.concOp [3, 5])))
          = true :=
  ⟨signDomain_lattice 4, by decide, by decide,
    toBestAbst_sound signAdd (signDomain_lattice 4) _ [3, 5] (by decide) (by decide)⟩

/-- C3. Tightness of the best abstraction: in a bounded lattice whose equality is the
component-wise `==`, every value `u` that is a superset of `fromConcrete(op(vals))` for
all non-rejected combinations `vals` of the cross-product of the arguments' concrete sets
is a superset of `toBestAbst(args)`. -/
theorem toBestAbst_least (E : EnumDomain ρ D ResBw BWs)
    (hl : IsBoundedLattice (E.dom ResBw)) (hs : StructuralEq (E.dom ResBw))
    (args : ArgsTuple D BWs) (u : D ResBw)
    (hu : ∀ vals, vals ∈ crossProduct BWs (build_concrete_sets E.dom args) →
      rejected E vals = false →
      isSuperset (E.dom ResBw) u
        ((E.dom ResBw).fromConcrete (APInt.ofWord ResBw (apply_n_ary E.concOp vals))) = true) :
    isSuperset (E.dom ResBw) u (toBestAbst E args) = true := by
  unfold isSuperset
  rw [opEq_iff_eq _ hs, toBestAbst_eq_foldl]
  apply meet_foldl_eq_foldl hl
  intro vals hv
  have h := (mem_survivors E args vals).1 hv
  exact (opEq_iff_eq _ hs _ _).1 (hu vals h.1 h.2)

/-- Witness of C3: the sign domain, 4-bit addition, the arguments `(zero, positive)` and
the upper bound `positive`. -/
theorem toBestAbst_least_witness :
    (∀ vals, vals ∈ crossProduct [4, 4]
          (build_concrete_sets signAdd.dom (.cons Sign.zero (.cons Sign.positive .nil))) →
        rejected signAdd vals = false →
        isSuperset (signAdd.dom 4) Sign.positive
          ((signAdd.dom 4).fromConcrete (APInt.ofWord 4 (apply_n_ary signAdd.concOp vals)))
          = true)
      ∧ isSuperset (signAdd.dom 4) Sign.positive
          (toBestAbst signAdd (.cons Sign.zero (.cons Sign.positive .nil))) = true :=
  ⟨by decide,
    toBestAbst_least signAdd (signDomain_lattice 4) signDomain_structural _ Sign.positive
      (by decide)⟩

/-- C4. Rejection semantics: if a predicate is supplied and returns 0 on every
combination of the cross-product of the arguments' concrete sets, or if the `toConcrete()`
of some argument is empty, then `toBestAbst(args)` is `bottom()`, whatever the concrete
operation. -/
theorem toBestAbst_eq_bottom (E : EnumDomain ρ D ResBw BWs) (args : ArgsTuple D BWs)
    (h : (∃ p, E.opCon = some p ∧
            ∀ vals, vals ∈ crossProduct BWs (build_concrete_sets E.dom args) →
              apply_n_ary p vals = 0)
          ∨ (∃ c, c ∈ HTuple.toList args ∧ (E.dom c.1).toConcrete c.2 = [])) :
    toBestAbst E args = (E.dom ResBw).bottom := by
  rw [toBestAbst_eq_foldl]
  have hnil : survivors E args = [] := by
    rcases h with ⟨p, hp, hall⟩ | hempty
    · unfold survivors
      rw [List.filter_eq_nil_iff]
      intro vals hv
      have h0 : p vals % 2 ^ 64 = 0 := hall vals hv
      simp only [rejected, hp, h0, decide_True, Bool.not_true]
      exact Bool.false_ne_true
    · unfold survivors
      rw [crossProduct_eq_nil_of_empty E.dom args hempty]
      rfl
  rw [hnil]
  rfl

/-- Witness of C4: a predicate that rejects everything on `(positive, positive)`, and
the argument `bottom` in `(bottom, positive)` without a predicate. -/
theorem toBestAbst_eq_bottom_witness :
    (signAddNever.opCon = some rejectAll
      ∧ (∀ vals, vals ∈ crossProduct [4, 4] (build_concrete_sets signAddNever.dom
            (.cons Sign.positive (.cons Sign.positive .nil))) → apply_n_ary rejectAll vals = 0)
      ∧ toBestAbst signAddNever (.cons Sign.positive (.cons Sign.positive .nil)) = Sign.bottom)
    ∧ ((signAdd.dom 4).toConcrete Sign.bottom = []
      ∧ toBestAbst signAdd (.cons Sign.bottom (.cons Sign.positive .nil)) = Sign.bottom) :=
  ⟨⟨rfl, by decide,
      toBestAbst_eq_bottom signAddNever _ (Or.inl ⟨rejectAll, rfl, by decide⟩)⟩,
    ⟨by decide,
      toBestAbst_eq_bottom signAdd (.cons Sign.bottom (.cons Sign.positive .nil))
        (Or.inr ⟨⟨4, Sign.bottom⟩, by simp [HTuple.toList], by decide⟩)⟩⟩

/-- C6. Exhaustive count: `genLows()` returns as many examples as the product of the
lengths of the per-argument `enumLattice()` lists, whatever the concrete operation and
the predicate; with two arguments whose lattices enumerate to `L` elements each, it
returns exactly `L * L` examples. -/
theorem genLows_length (E : EnumDomain ρ D ResBw BWs) :
    (genLows E).length = (BWs.map fun bw => (E.dom bw).enumLattice.length).prod
      ∧ ∀ L, BWs.length = 2 → (∀ bw, bw ∈ BWs → (E.dom bw).enumLattice.length = L) →
          (genLows E).length = L * L := by
  refine ⟨genLows_length_eq E, ?_⟩
  intro L h2 hL
  rw [genLows_length_eq]
  exact prod_map_of_length_two BWs _ L h2 hL

/-- Witness of C6: the sign domain with two 4-bit arguments, `L = 5`. -/
theorem genLows_length_witness :
    ([4, 4] : List Nat).length = 2
      ∧ (∀ bw, bw ∈ ([4, 4] : List Nat) → (signAdd.dom bw).enumLattice.length = 5)
      ∧ (genLows signAdd).length = 5 * 5 :=
  ⟨rfl, fun _ _ => rfl, (genLows_length signAdd).2 5 rfl (fun _ _ => rfl)⟩

/-- C7. The vector returned by `genLows()` lists, in the lexicographic order of the
per-argument `enumLattice()` lists (first position varying slowest), exactly one example
`(args, toBestAbst(args))` for every tuple of the cross-product of the per-position
enumerations; nothing else of the engine (such as the initial contents of the scratch
tuple) enters the output. -/
theorem genLows_is_map_over_lattice_product (E : EnumDomain ρ D ResBw BWs) :
    genLows E
      = (latticeTuples E.dom BWs).map fun args => (args, toBestAbst E args) := by
  rw [genLows_eq, latticeProduct_enumLattices]

/-- C8. Whenever `genMids(n, rng)` returns, the returned vector has exactly `n`
examples, and every example `(args, res)` in it has `res = toBestAbst(args)` and
`res.isBottom() == false`. -/
theorem genMids_examples (E : EnumDomain ρ D ResBw BWs) (fuel n : Nat) (rng : ρ)
    (r : List (Example D ResBw BWs) × ρ) (h : genMids E fuel n rng = some r) :
    r.1.length = n
      ∧ ∀ ex, ex ∈ r.1 →
          ex.2 = toBestAbst E ex.1 ∧ (E.dom ResBw).isBottom ex.2 = false := by
  obtain ⟨hlen, hall⟩ := genMidsFor_some E fuel n ([], rng) r h
  refine ⟨by simpa using hlen, ?_⟩
  intro ex hex
  rcases hall ex hex with hmem | hgood
  · cases hmem
  · exact hgood

/-- Witness of C8: two examples asked of the sign engine on a stream whose first and
third draws have a `bottom` best abstraction. -/
theorem genMids_examples_witness :
    genMids signAdd 3 2 [0, 1, 2, 3, 4, 0, 2, 1]
        = some ([(.cons Sign.zero (.cons Sign.positive .nil), Sign.positive),
                 (.cons Sign.zero (.cons Sign.negative .nil), Sign.negative)], [])
      ∧ (([(.cons Sign.zero (.cons Sign.positive .nil), Sign.positive),
           (.cons Sign.zero (.cons Sign.negative .nil), Sign.negative)] :
            List (Example SignD 4 [4, 4])).length = 2
        ∧ ∀ ex, ex ∈ ([(.cons Sign.zero (.cons Sign.positive .nil), Sign.positive),
              (.cons Sign.zero (.cons Sign.negative .nil), Sign.negative)] :
                List (Example SignD 4 [4, 4])) →
            ex.2 = toBestAbst signAdd ex.1 ∧ (signAdd.dom 4).isBottom ex.2 = false) :=
  ⟨rfl, genMids_examples signAdd 3 2 [0, 1, 2, 3, 4, 0, 2, 1] _ rfl⟩

/-- C5. Exact vs. sampled monotonicity: in a bounded lattice, for every example
`(args, res)` returned by `genHighs`, whatever the sample counts and the random stream,
if `sample_concrete` on each argument of `args` always returns a member of that
argument's `toConcrete()`, then `isSuperset(toBestAbst(args), res)` holds. -/
theorem genHighs_result_below_toBestAbst (E : EnumDomain ρ D ResBw BWs)
    (hl : IsBoundedLattice (E.dom ResBw)) (num_lat_samples num_conc_samples : Nat) (rng : ρ)
    (ex : Example D ResBw BWs)
    (hex : ex ∈ (genHighs E num_lat_samples num_conc_samples rng).1)
    (hs : ∀ c, c ∈ HTuple.toList ex.1 → ∀ r,
      ((E.dom c.1).sample_concrete c.2 r).1 ∈ (E.dom c.1).toConcrete c.2) :
    isSuperset (E.dom ResBw) (toBestAbst E ex.1) ex.2 = true := by
  obtain ⟨new, h1, _, _, _, h5⟩ :=
    genHighsOuter_spec E num_conc_samples num_lat_samples ([], ⟨rng, []⟩)
  unfold genHighs at hex
  rw [h1] at hex
  simp only [List.nil_append] at hex
  obtain ⟨s, hres⟩ := h5 ex hex
  obtain ⟨l, hmem, hfold⟩ := genHighsInner_spec E ex.1 hs num_conc_samples s (E.dom ResBw).bottom
  unfold isSuperset
  rw [hres, hfold, meet_toBestAbst_sampled E hl ex.1 l hmem]
  exact opEq_self _ _

/-- Witness of C5: one tuple and two inner samples drawn by the sign engine from the
stream `2, 3, 0, 1, 5, 2`; the tuple is `(zero, positive)`. -/
theorem genHighs_result_below_toBestAbst_witness :
    IsBoundedLattice (signAdd.dom 4)
      ∧ ((.cons Sign.zero (.cons Sign.positive .nil), Sign.positive) :
            Example SignD 4 [4, 4]) ∈ (genHighs signAdd 1 2 [2, 3, 0, 1, 5, 2]).1
      ∧ (∀ c, c ∈ HTuple.toList
            (.cons Sign.zero (.cons Sign.positive .nil) : ArgsTuple SignD [4, 4]) → ∀ r,
          ((signAdd.dom c.1).sample_concrete c.2 r).1 ∈ (signAdd.dom c.1).toConcrete c.2)
      ∧ isSuperset (signAdd.dom 4)
          (toBestAbst signAdd (.cons Sign.zero (.cons Sign.positive .nil))) Sign.positive
          = true :=
  have hs : ∀ c, c ∈ HTuple.toList
        (.cons Sign.zero (.cons Sign.positive .nil) : ArgsTuple SignD [4, 4]) → ∀ r,
      ((signAdd.dom c.1).sample_concrete c.2 r).1 ∈ (signAdd.dom c.1).toConcrete c.2 := by
    intro c hc r
    simp only [HTuple.toList, List.mem_cons, List.mem_nil_iff, or_false] at hc
    rcases hc with rfl | rfl
    · exact signDomain_sample_mem 4 Sign.zero r (by decide)
    · exact signDomain_sample_mem 4 Sign.positive r (by decide)
  ⟨signDomain_lattice 4, List.mem_singleton.2 rfl, hs,
    genHighs_result_below_toBestAbst signAdd (signDomain_lattice 4) 1 2 [2, 3, 0, 1, 5, 2]
      (.cons Sign.zero (.cons Sign.positive .nil), Sign.positive)
      (List.mem_singleton.2 rfl) hs⟩

/-- C9, as stated, fails: the sign engine, asked for one tuple and one inner sample on
the stream `0, 0`, draws `(bottom, bottom)` and calls `sample_concrete` on `bottom`,
whose concretization is empty. -/
theorem genHighs_samples_bottom :
    ¬ ∀ c, c ∈ (genHighs signAdd 1 1 [0, 0]).2.calls →
        (signAdd.dom c.1).toConcrete c.2 ≠ [] := by
  intro h
  exact h ⟨4, Sign.bottom⟩ (List.mem_cons_self _ _) (by decide)

/-- C9, amended. `genHighs` calls `sample_concrete`, in every inner iteration, on every
argument of every drawn tuple, without testing it: the objects it is called on are
those of the returned examples, each `num_conc_samples` times. So when the domain's
`rand` never returns a value with an empty concretization, every object on which
`sample_concrete` is called has a non-empty concretization. -/
theorem genHighs_sample_receivers (E : EnumDomain ρ D ResBw BWs)
    (num_lat_samples num_conc_samples : Nat) (rng : ρ) :
    (genHighs E num_lat_samples num_conc_samples rng).2.calls
        = (genHighs E num_lat_samples num_conc_samples rng).1.flatMap
            (fun ex => (List.replicate num_conc_samples (HTuple.toList ex.1)).flatten)
      ∧ ((∀ bw, bw ∈ BWs → ∀ r, (E.dom bw).toConcrete ((E.dom bw).rand r).1 ≠ []) →
          ∀ c, c ∈ (genHighs E num_lat_samples num_conc_samples rng).2.calls →
            (E.dom c.1).toConcrete c.2 ≠ []) := by
  obtain ⟨new, h1, _, h3, h4, _⟩ :=
    genHighsOuter_spec E num_conc_samples num_lat_samples ([], ⟨rng, []⟩)
  unfold genHighs
  simp only [List.nil_append] at h1 h3
  refine ⟨by rw [h3, h1], ?_⟩
  intro hrand c hc
  rw [h3] at hc
  simp only [List.mem_flatMap, List.mem_flatten, List.mem_replicate] at hc
  obtain ⟨ex, hex, l, ⟨_, hl⟩, hcl⟩ := hc
  subst hl
  obtain ⟨hbw, r, hr⟩ := h4 ex hex c hcl
  rw [hr]
  exact hrand c.1 hbw r

/-- Witness of the amended C9: the sign domain whose `rand` never draws `bottom`. -/
theorem genHighs_sample_receivers_witness :
    (∀ bw, bw ∈ ([4, 4] : List Nat) → ∀ r,
        (signAddNonBottom.dom bw).toConcrete ((signAddNonBottom.dom bw).rand r).1 ≠ [])
      ∧ ∀ c, c ∈ (genHighs signAddNonBottom 2 2 [2, 3, 0, 1, 5, 2]).2.calls →
          (signAddNonBottom.dom c.1).toConcrete c.2 ≠ [] :=
  ⟨signDomainNonBottom_rand_concrete,
    (genHighs_sample_receivers signAddNonBottom 2 2 [2, 3, 0, 1, 5, 2]).2
      signDomainNonBottom_rand_concrete⟩

/-- C10, as stated, fails: in the sign domain at width 1 no value is positive, so every
concrete value of `positive` is a concrete value of `zero`, yet
`isSuperset(zero, positive)` is false. -/
theorem isSuperset_iff_concrete_subset_fails :
    ¬ (isSuperset (signDomain 1) Sign.zero Sign.positive = true
        ↔ ∀ c, c ∈ (signDomain 1).toConcrete Sign.positive →
            c ∈ (signDomain 1).toConcrete Sign.zero) := by
  decide

/-- C10, amended. In a domain whose equality is the component-wise `==` and whose meet
concretizes to the intersection of the concrete sets, `isSuperset(a, b)` implies that
every concrete value of `b.toConcrete()` is in `a.toConcrete()`; if moreover values with
the same concrete values are equal, the two are equivalent. -/
theorem isSuperset_concrete_subset {bw : Nat} (dom : Domain ρ D bw)
    (hs : StructuralEq dom) (hm : MeetIsIntersection dom) (a b : D bw) :
    (isSuperset dom a b = true →
        ∀ c, c ∈ dom.toConcrete b → c ∈ dom.toConcrete a)
      ∧ (ConcretizationInjective dom →
          (isSuperset dom a b = true
            ↔ ∀ c, c ∈ dom.toConcrete b → c ∈ dom.toConcrete a)) := by
  have hfwd : isSuperset dom a b = true →
      ∀ c, c ∈ dom.toConcrete b → c ∈ dom.toConcrete a := by
    intro h c hc
    have heq : dom.meet a b = b := (opEq_iff_eq dom hs _ _).1 h
    rw [← heq] at hc
    exact ((hm a b).1 c hc).1
  refine ⟨hfwd, fun hinj => ⟨hfwd, ?_⟩⟩
  intro hsub
  have heq : dom.meet a b = b :=
    hinj _ _ (fun c hc => ((hm a b).1 c hc).2) (fun c hc => (hm a b).2 c (hsub c hc) hc)
  unfold isSuperset
  rw [heq]
  exact opEq_self dom b

/-- Witness of the amended C10: the sign domain at width 4, with `a = top` and
`b = positive`. -/
theorem isSuperset_concrete_subset_witness :
    StructuralEq (signDomain 4) ∧ MeetIsIntersection (signDomain 4)
      ∧ ConcretizationInjective (signDomain 4)
      ∧ (isSuperset (signDomain 4) Sign.top Sign.positive = true
          ↔ ∀ c, c ∈ (signDomain 4).toConcrete Sign.positive →
              c ∈ (signDomain 4).toConcrete Sign.top) :=
  ⟨signDomain_structural, signDomain_meet_intersection, signDomain_injective,
    (isSuperset_concrete_subset (signDomain 4) signDomain_structural
      signDomain_meet_intersection Sign.top Sign.positive).2 signDomain_injective⟩

/-- C11. The claim says that `joinAll` and `meetAll` return a value for every input
collection. The counter of `meetAll` is an `unsigned int`, while that of `joinAll` is a
`std::size_t`: on a vector of `2 ^ 32` elements the counter of `meetAll` wraps to 0
after the last element and stays below the size, so whatever the number of iterations
allowed, `meetAll` does not return. -/
theorem meetAll_does_not_return_on_long_vector :
    ∀ fuel, meetAll (signDomain 4) fuel (List.replicate (2 ^ 32) Sign.top) = none := by
  intro fuel
  exact meetAll_eq_none (signDomain 4) fuel _ (by rw [List.length_replicate])

/-- C12. Empty-collection identities: `joinAll` of the empty collection is `bottom()`
and `meetAll` of the empty collection is `top()`, for every domain. -/
theorem joinAll_meetAll_empty {bw : Nat} (dom : Domain ρ D bw) (fuel : Nat) :
    joinAll dom fuel [] = some dom.bottom ∧ meetAll dom fuel [] = some dom.top :=
  ⟨rfl, rfl⟩

/-- C13. Singleton reduction: `joinAll([x])` is `x` and `meetAll([x])` is `x`, with no
assumption on the domain's `join` and `meet` (the loops do not run). -/
theorem joinAll_meetAll_singleton {bw : Nat} (dom : Domain ρ D bw) (fuel : Nat) (x : D bw) :
    joinAll dom fuel [x] = some x ∧ meetAll dom fuel [x] = some x := by
  cases fuel <;> simp [joinAll, joinAllLoop, meetAll, meetAllLoop]

/-- C14. Structural equality: `a == b` is true exactly when `a[i] == b[i]` for every
index `i` with `0 ≤ i < arity`, and `a != b` is the negation of `a == b`. -/
theorem opEq_structural {bw : Nat} (dom : Domain ρ D bw) (a b : D bw) :
    (opEq dom a b = true ↔ ∀ i, i < dom.arity → dom.idx a i = dom.idx b i)
      ∧ opNe dom a b = !opEq dom a b :=
  ⟨opEq_iff_components dom a b, rfl⟩

/-- C15. A missing predicate means always applicable: for every concrete operation,
an engine constructed without a predicate computes the same `toBestAbst`, the same
`genLows` examples and the same `genHighs` examples (on the same random stream) as the
engine whose predicate returns a non-zero word on every input. -/
theorem missing_predicate_is_always_applicable (dom : (bw : Nat) → Domain ρ D bw)
    (op p : List Nat → Nat) (hp : ∀ vals, apply_n_ary p vals ≠ 0) :
    (∀ args : ArgsTuple D BWs,
        toBestAbst (⟨dom, op, none⟩ : EnumDomain ρ D ResBw BWs) args
          = toBestAbst (⟨dom, op, some p⟩ : EnumDomain ρ D ResBw BWs) args)
      ∧ genLows (⟨dom, op, none⟩ : EnumDomain ρ D ResBw BWs)
          = genLows (⟨dom, op, some p⟩ : EnumDomain ρ D ResBw BWs)
      ∧ ∀ (num_lat_samples num_conc_samples : Nat) (rng : ρ),
          genHighs (⟨dom, op, none⟩ : EnumDomain ρ D ResBw BWs)
              num_lat_samples num_conc_samples rng
            = genHighs (⟨dom, op, some p⟩ : EnumDomain ρ D ResBw BWs)
              num_lat_samples num_conc_samples rng :=
  ⟨toBestAbst_always dom op p hp, genLows_always dom op p hp,
    fun nl nc _ => genHighsOuter_always dom op p hp nc nl _⟩

/-- Witness of C15: the sign engine without a predicate and with the predicate that
returns 1 on every input. -/
theorem missing_predicate_is_always_applicable_witness :
    (∀ vals, apply_n_ary acceptAll vals ≠ 0)
      ∧ toBestAbst signAdd (.cons Sign.positive (.cons Sign.negative .nil))
          = toBestAbst signAddAlways (.cons Sign.positive (.cons Sign.negative .nil))
      ∧ genLows signAdd = genLows signAddAlways :=
  have hp : ∀ vals, apply_n_ary acceptAll vals ≠ 0 := by
    intro vals
    simp [apply_n_ary, acceptAll]
  ⟨hp,
    (@missing_predicate_is_always_applicable (List Nat) SignD 4 [4, 4]
      signDomain addOp acceptAll hp).1 _,
    (@missing_predicate_is_always_applicable (List Nat) SignD 4 [4, 4]
      signDomain addOp acceptAll hp).2.1⟩

/-- C16. Concrete scenario: in the 4-bit sign domain (the three signs concretizing to
the 4-bit values of that sign, two distinct signs joining to `top`), with unsigned
addition truncated to 4 bits and no predicate, `toBestAbst(positive, positive)` is
`top()` and `toBestAbst(zero, positive)` is exactly `positive`. -/
theorem sign_scenario :
    ((signDomain 4).toConcrete Sign.negative).map APInt.val = [8, 9, 10, 11, 12, 13, 14, 15]
      ∧ ((signDomain 4).toConcrete Sign.zero).map APInt.val = [0]
      ∧ ((signDomain 4).toConcrete Sign.positive).map APInt.val = [1, 2, 3, 4, 5, 6, 7]
      ∧ (signDomain 4).join Sign.negative Sign.positive = Sign.top
      ∧ (signDomain 4).join Sign.negative Sign.zero = Sign.top
      ∧ (signDomain 4).join Sign.zero Sign.positive = Sign.top
      ∧ signAddTrunc.opCon = none
      ∧ toBestAbst signAddTrunc (.cons Sign.positive (.cons Sign.positive .nil)) = Sign.top
      ∧ toBestAbst signAddTrunc (.cons Sign.zero (.cons Sign.positive .nil))
          = Sign.positive := by
  refine ⟨by decide, by decide, by decide, rfl, rfl, rfl, rfl, by decide, by decide⟩

/-- C17. For every `num_lat_samples`, `num_conc_samples` and random stream, `genHighs`
returns exactly `num_lat_samples` examples, one per drawn argument tuple in draw order,
the result of each being the join, from `bottom`, of `fromConcrete(op(sample))` over the
inner samples the predicate does not reject; a tuple whose accumulated result is
`bottom` is emitted all the same (with no inner sample every result is `bottom`, and
there are still `num_lat_samples` examples). -/
theorem genHighs_examples (E : EnumDomain ρ D ResBw BWs)
    (num_lat_samples num_conc_samples : Nat) (rng : ρ) :
    (genHighs E num_lat_samples num_conc_samples rng).1
        = genHighsReference E num_conc_samples num_lat_samples rng
      ∧ (genHighs E num_lat_samples num_conc_samples rng).1.length = num_lat_samples
      ∧ (genHighs E num_lat_samples 0 rng).1.length = num_lat_samples
      ∧ (genHighs E num_lat_samples 0 rng).1.map (fun ex => ex.2)
          = List.replicate num_lat_samples (E.dom ResBw).bottom := by
  have h : ∀ nc, (genHighs E num_lat_samples nc rng).1
      = genHighsReference E nc num_lat_samples rng := by
    intro nc
    unfold genHighs
    rw [genHighsOuter_eq]
    rfl
  refine ⟨h _, ?_, ?_, ?_⟩
  · rw [h, genHighsReference_length]
  · rw [h, genHighsReference_length]
  · rw [h, genHighsReference_no_samples]

/-- C18. Monotonicity of the best abstraction: in a bounded lattice, for all argument
tuples `a` and `b` such that, at every position, every value of `a_i.toConcrete()` occurs
in `b_i.toConcrete()`, `isSuperset(toBestAbst(b), toBestAbst(a))` holds, for every
concrete operation and predicate. -/
theorem toBestAbst_monotone (E : EnumDomain ρ D ResBw BWs)
    (hl : IsBoundedLattice (E.dom ResBw)) (a b : ArgsTuple D BWs)
    (h : concreteSubset E.dom a b) :
    isSuperset (E.dom ResBw) (toBestAbst E b) (toBestAbst E a) = true := by
  unfold isSuperset
  rw [toBestAbst_eq_foldl E a]
  rw [meet_foldl_eq_foldl hl (abstractResult E) (toBestAbst E b) (survivors E a)
    (fun v hv => meet_toBestAbst_abstractResult E hl b v (survivors_subset E a b h v hv))]
  exact opEq_self _ _

/-- Witness of C18: the sign engine with `a = (zero, positive)` and
`b = (top, positive)`. -/
theorem toBestAbst_monotone_witness :
    IsBoundedLattice (signAdd.dom 4)
      ∧ concreteSubset signAdd.dom
          (.cons Sign.zero (.cons Sign.positive .nil) : ArgsTuple SignD [4, 4])
          (.cons Sign.top (.cons Sign.positive .nil))
      ∧ isSuperset (signAdd.dom 4)
          (toBestAbst signAdd (.cons Sign.top (.cons Sign.positive .nil)))
          (toBestAbst signAdd (.cons Sign.zero (.cons Sign.positive .nil))) = true :=
  have h : concreteSubset signAdd.dom
      (.cons Sign.zero (.cons Sign.positive .nil) : ArgsTuple SignD [4, 4])
      (.cons Sign.top (.cons Sign.positive .nil)) :=
    ⟨by decide, by decide, trivial⟩
  ⟨signDomain_lattice 4, h, toBestAbst_monotone signAdd (signDomain_lattice 4) _ _ h⟩

/-- C19. The best abstraction depends only on the concrete sets: when `join` is
commutative, associative and idempotent, two argument tuples `a` and `b` whose
`toConcrete()` lists contain, at every position, the same values (in any order, with
any duplicates) have `toBestAbst(a) == toBestAbst(b)`; they are even the same value. -/
theorem toBestAbst_depends_on_concrete_sets (E : EnumDomain ρ D ResBw BWs)
    (hj : IsJoinSemilattice (E.dom ResBw)) (a b : ArgsTuple D BWs)
    (hab : concreteSubset E.dom a b) (hba : concreteSubset E.dom b a) :
    opEq (E.dom ResBw) (toBestAbst E a) (toBestAbst E b) = true
      ∧ toBestAbst E a = toBestAbst E b := by
  have heq : toBestAbst E a = toBestAbst E b := by
    rw [toBestAbst_eq_foldl E a, toBestAbst_eq_foldl E b]
    exact semilattice_foldl_eq_of_same_members hj (abstractResult E) _ _ _
      (survivors_subset E a b hab) (survivors_subset E b a hba)
  refine ⟨?_, heq⟩
  rw [heq]
  exact opEq_self _ _

/-- Witness of C19: in the sign domain with two listings, the tuple of the plain
`positive` twice and the tuple of the other variant of `positive` twice. Their
`toConcrete()` lists differ (increasing, against decreasing with every value twice) but
hold the same values; both best abstractions are the plain `top`, reached by joins. -/
theorem toBestAbst_depends_on_concrete_sets_witness :
    IsJoinSemilattice (listedAdd.dom 4)
      ∧ (listedAdd.dom 4).toConcrete ⟨Sign.positive, false⟩
          ≠ (listedAdd.dom 4).toConcrete ⟨Sign.positive, true⟩
      ∧ concreteSubset listedAdd.dom
          (.cons ⟨Sign.positive, false⟩ (.cons ⟨Sign.positive, false⟩ .nil) :
            ArgsTuple ListedSignD [4, 4])
          (.cons ⟨Sign.positive, true⟩ (.cons ⟨Sign.positive, true⟩ .nil))
      ∧ concreteSubset listedAdd.dom
          (.cons ⟨Sign.positive, true⟩ (.cons ⟨Sign.positive, true⟩ .nil) :
            ArgsTuple ListedSignD [4, 4])
          (.cons ⟨Sign.positive, false⟩ (.cons ⟨Sign.positive, false⟩ .nil))
      ∧ toBestAbst listedAdd
          (.cons ⟨Sign.positive, false⟩ (.cons ⟨Sign.positive, false⟩ .nil))
          = ⟨Sign.top, false⟩
      ∧ (opEq (listedAdd.dom 4)
            (toBestAbst listedAdd
              (.cons ⟨Sign.positive, false⟩ (.cons ⟨Sign.positive, false⟩ .nil)))
            (toBestAbst listedAdd
              (.cons ⟨Sign.positive, true⟩ (.cons ⟨Sign.positive, true⟩ .nil))) = true
        ∧ toBestAbst listedAdd
            (.cons ⟨Sign.positive, false⟩ (.cons ⟨Sign.positive, false⟩ .nil))
          = toBestAbst listedAdd
            (.cons ⟨Sign.positive, true⟩ (.cons ⟨Sign.positive, true⟩ .nil))) :=
  have hab : concreteSubset listedAdd.dom
      (.cons ⟨Sign.positive, false⟩ (.cons ⟨Sign.positive, false⟩ .nil) :
        ArgsTuple ListedSignD [4, 4])
      (.cons ⟨Sign.positive, true⟩ (.cons ⟨Sign.positive, true⟩ .nil)) :=
    ⟨by decide, by decide, trivial⟩
  have hba : concreteSubset listedAdd.dom
      (.cons ⟨Sign.positive, true⟩ (.cons ⟨Sign.positive, true⟩ .nil) :
        ArgsTuple ListedSignD [4, 4])
      (.cons ⟨Sign.positive, false⟩ (.cons ⟨Sign.positive, false⟩ .nil)) :=
    ⟨by decide, by decide, trivial⟩
  ⟨listedSignDomain_semilattice 4, by decide, hab, hba, by decide,
    toBestAbst_depends_on_concrete_sets listedAdd (listedSignDomain_semilattice 4) _ _
      hab hba⟩

/-- C20. With the random stream seen as the sequence of argument tuples produced by
successive `make_random_args` calls: whenever `genMids(n, rng)` returns, there is a
number `k` of draws it has consumed, and its output is the first `n` tuples, in draw
order, of every prefix of at least `k` draws whose `toBestAbst` is not `bottom`, each
paired with its `toBestAbst`; the rejected draws appear nowhere in the output. -/
theorem genMids_is_first_kept_draws (E : EnumDomain ρ D ResBw BWs) (fuel n : Nat) (rng : ρ)
    (r : List (Example D ResBw BWs) × ρ) (h : genMids E fuel n rng = some r) :
    ∃ k, r.2 = rngAfterDraws E k rng
      ∧ ∀ m, k ≤ m →
          r.1 = (((drawSeq E m rng).filter (keptByGenMids E)).take n).map
            (fun a => (a, toBestAbst E a)) := by
  obtain ⟨k, h1, h2, h3⟩ := genMidsFor_draws E fuel n ([], rng) r h
  refine ⟨k, h1, ?_⟩
  intro m hm
  obtain ⟨d, hd⟩ := Nat.exists_eq_add_of_le hm
  subst hd
  simp only [List.nil_append] at h3
  rw [h3, drawSeq_add, List.filter_append, List.take_left' h2]

/-- Witness of C20: two examples asked of the sign engine on the stream
`0, 1, 2, 3, 4, 0, 2, 1`, of whose four draws the first and the third are rejected. -/
theorem genMids_is_first_kept_draws_witness :
    genMids signAdd 3 2 [0, 1, 2, 3, 4, 0, 2, 1]
        = some ([(.cons Sign.zero (.cons Sign.positive .nil), Sign.positive),
                 (.cons Sign.zero (.cons Sign.negative .nil), Sign.negative)], [])
      ∧ ∃ k, ([] : List Nat) = rngAfterDraws signAdd k [0, 1, 2, 3, 4, 0, 2, 1]
          ∧ ∀ m, k ≤ m →
            ([(.cons Sign.zero (.cons Sign.positive .nil), Sign.positive),
              (.cons Sign.zero (.cons Sign.negative .nil), Sign.negative)] :
                List (Example SignD 4 [4, 4]))
              = (((drawSeq signAdd m [0, 1, 2, 3, 4, 0, 2, 1]).filter
                    (keptByGenMids signAdd)).take 2).map
                  (fun a => (a, toBestAbst signAdd a)) :=
  ⟨rfl, genMids_is_first_kept_draws signAdd 3 2 [0, 1, 2, 3, 4, 0, 2, 1] _ rfl⟩

end Claims

end SynthXfer
